import Mathlib

/-!
# Verification of the `spdx-expression` library

A shallow embedding of the SPDX license-expression library.  The wrapper type
`SpdxExpression` with its operations `parse`, `licenses` and `Display` is translated
from `src/expression.rs`.  The inner expression tree (`ExpressionVariant`), its
recursive-descent parser, its canonical printer, and the error types live in source
files that are not part of the given sources; they are modelled from the
specification (sections 3, 4.1, 4.2 and 7), as marked on each such definition.
-/

/-! ## Characters and tokens -/

/-- ASCII whitespace in the sense of Rust's `char::is_ascii_whitespace`
(space, tab, newline, form feed, carriage return).  Used by
`str::split_ascii_whitespace` in `SpdxExpression::licenses`. -/
def isAsciiWs (c : Char) : Bool :=
  c = ' ' || c = '\t' || c = '\n' || c = '\x0c' || c = '\r'

/-- Modelled from the spec (4.1): characters that may occur in a license or
exception identifier token: letters, digits, `.`, `-`, `+`, and `:` (the latter
for `DocumentRef-…:LicenseRef-…` forms). -/
def idChar (c : Char) : Bool :=
  c.isAlphanum || c = '.' || c = '-' || c = '+' || c = ':'

/-- Modelled from the spec (4.1): `(` and `)` are token boundaries even when not
whitespace-separated, and whitespace separates tokens. -/
def wordBreak (c : Char) : Bool :=
  c = '(' || c = ')' || isAsciiWs c

/-- Modelled from the spec (4.1): the tokens of the expression grammar. -/
inductive Token where
  | lparen
  | rparen
  | opAnd
  | opOr
  | opWith
  | ident (w : String)
deriving DecidableEq

/-- Modelled from the spec (4.1): the operator words `AND`, `OR`, `WITH` are
recognized as exact-case reserved words; any other word is an identifier token.
(`NONE`/`NOASSERTION` are matched as whole tokens at atom position by the parser.) -/
def classify (w : String) : Token :=
  if w = "AND" then .opAnd
  else if w = "OR" then .opOr
  else if w = "WITH" then .opWith
  else .ident w

/-- Emit the pending word (if any) in front of a token list. -/
def flushTok (acc : List Char) (ts : List Token) : List Token :=
  match acc with
  | [] => ts
  | _ :: _ => classify (String.mk acc) :: ts

/-- Tokenizer loop: `acc` is the word read so far. -/
def tokGo (acc : List Char) : List Char → List Token
  | [] => flushTok acc []
  | c :: cs =>
    if c = '(' then flushTok acc (.lparen :: tokGo [] cs)
    else if c = ')' then flushTok acc (.rparen :: tokGo [] cs)
    else if isAsciiWs c then flushTok acc (tokGo [] cs)
    else tokGo (acc ++ [c]) cs

/-- Modelled from the spec (4.1): split the input on whitespace, treating `(` and
`)` as separable token boundaries.  Word validation against the identifier
character class happens in the parser. -/
def tokenize (s : String) : List Token := tokGo [] s.data

/-! ## The expression tree -/

/-- Modelled from the spec (3): the expression tree of `ExpressionVariant` (its
source file is not among the given sources).  A closed set of variants: the
reserved constants `NONE` and `NOASSERTION`, a bare license identifier, binary
`AND`/`OR` nodes, a `WITH` node whose exception slot holds a bare identifier
token only (never a sub-expression), and a marker node `paren` recording that a
sub-expression was written with explicit surrounding parentheses in the source
text, kept purely for round-trip-faithful rendering. -/
inductive ExpressionVariant where
  | noneE
  | noAssertion
  | simple (id : String)
  | andE (left right : ExpressionVariant)
  | orE (left right : ExpressionVariant)
  | withE (license : ExpressionVariant) (exception : String)
  | paren (inner : ExpressionVariant)
deriving DecidableEq

/-- Modelled from the spec (4.2): recursive canonical printer with a precedence
parameter.  Binding strengths: `OR` = 1, `AND` = 2, `WITH` = 3, atoms = 4.  A
node's rendering is wrapped in parentheses when its operator binds less tightly
than the context requires; an explicitly grouped node (`paren`) always re-emits
its parentheses.  Operators are separated by single spaces. -/
def ExpressionVariant.renderP : ExpressionVariant → Nat → String
  | .noneE, _ => "NONE"
  | .noAssertion, _ => "NOASSERTION"
  | .simple id, _ => id
  | .paren e, _ => "(" ++ e.renderP 1 ++ ")"
  | .orE l r, ctx =>
    let s := l.renderP 1 ++ " OR " ++ r.renderP 2
    if 1 < ctx then "(" ++ s ++ ")" else s
  | .andE l r, ctx =>
    let s := l.renderP 2 ++ " AND " ++ r.renderP 3
    if 2 < ctx then "(" ++ s ++ ")" else s
  | .withE l x, ctx =>
    let s := l.renderP 4 ++ " WITH " ++ x
    if 3 < ctx then "(" ++ s ++ ")" else s

/-- Modelled from the spec (4.2): `Display for ExpressionVariant` renders at the
outermost (lowest) context. -/
instance : ToString ExpressionVariant := ⟨fun e => e.renderP 1⟩

/-- Modelled from the spec (4.1): an identifier token is accepted if it is
non-empty and consists of identifier characters. -/
def validId (w : String) : Bool :=
  !w.data.isEmpty && w.data.all idChar

/-! ## The parser -/

/-- The production being parsed: atom, with-expression, and-chain, or-chain,
plus the two chain-continuation loops carrying the tree built so far. -/
inductive PMode where
  | mAtom
  | mWith
  | mAnd
  | mOr
  | mAndLoop (acc : ExpressionVariant)
  | mOrLoop (acc : ExpressionVariant)

/-- Modelled from the spec (4.1): the recursive-descent / precedence parser over
the token list, written with explicit fuel so that it is structurally recursive
(the fuel is a Lean artifact; `ExpressionVariant.parse` supplies enough fuel for
any token list, see `parseF_complete_or` and `sizeOr_le_toks`).

* atom: `( expr )` (tagged as explicitly grouped), a bare identifier, or the
  reserved whole tokens `NONE` / `NOASSERTION`;
* with-expression: `Atom ["WITH" identifier]`, the right-hand side a bare
  exception identifier token;
* and-expression: left-associative chain of with-expressions joined by `AND`;
* or-expression: left-associative chain of and-expressions joined by `OR`.

Any mismatch yields `none`; no partial tree escapes. -/
def parseF : Nat → PMode → List Token → Option (ExpressionVariant × List Token)
  | 0, _, _ => none
  | fuel+1, .mAtom, toks =>
    match toks with
    | .lparen :: rest =>
      match parseF fuel .mOr rest with
      | some (e, .rparen :: rest2) => some (.paren e, rest2)
      | _ => none
    | .ident w :: rest =>
      if w = "NONE" then some (.noneE, rest)
      else if w = "NOASSERTION" then some (.noAssertion, rest)
      else if validId w then some (.simple w, rest)
      else none
    | _ => none
  | fuel+1, .mWith, toks =>
    match parseF fuel .mAtom toks with
    | none => none
    | some (a, .opWith :: .ident x :: rest) =>
      if validId x then some (.withE a x, rest) else none
    | some (_, .opWith :: _) => none
    | some (a, rest) => some (a, rest)
  | fuel+1, .mAnd, toks =>
    match parseF fuel .mWith toks with
    | some (e, rest) => parseF fuel (.mAndLoop e) rest
    | none => none
  | fuel+1, .mAndLoop acc, toks =>
    match toks with
    | .opAnd :: rest =>
      match parseF fuel .mWith rest with
      | some (e, rest2) => parseF fuel (.mAndLoop (.andE acc e)) rest2
      | none => none
    | _ => some (acc, toks)
  | fuel+1, .mOr, toks =>
    match parseF fuel .mAnd toks with
    | some (e, rest) => parseF fuel (.mOrLoop e) rest
    | none => none
  | fuel+1, .mOrLoop acc, toks =>
    match toks with
    | .opOr :: rest =>
      match parseF fuel .mAnd rest with
      | some (e, rest2) => parseF fuel (.mOrLoop (.orE acc e)) rest2
      | none => none
    | _ => some (acc, toks)

/-- Modelled from the spec (4.1, 7): the inner parse error, carrying a
human-readable description. -/
structure ParseError where
  msg : String
deriving DecidableEq

instance : ToString ParseError := ⟨ParseError.msg⟩

/-- Modelled from the spec (4.1): parse a whole input string: tokenize, parse an
or-expression, and require that every token was consumed.  Failure discards any
partial tree. -/
def ExpressionVariant.parse (expression : String) : Except ParseError ExpressionVariant :=
  let toks := tokenize expression
  match parseF (3 * toks.length + 1) .mOr toks with
  | some (e, []) => .ok e
  | some (_, _ :: _) => .error ⟨"unexpected trailing tokens"⟩
  | none => .error ⟨"invalid SPDX expression"⟩

/-! ## The wrapper (`src/expression.rs`) -/

/-- Modelled from the spec (7): the single externally visible error kind, a parse
failure carrying a descriptive message (the error source file is not among the
given sources; the variant name and payload match the use
`SpdxExpressionError::Parse(err.to_string())` in `src/expression.rs`). -/
inductive SpdxExpressionError where
  | Parse (msg : String)
deriving DecidableEq

/-- Main struct for SPDX License Expressions (`src/expression.rs`): owns the
parsed expression. -/
structure SpdxExpression where
  inner : ExpressionVariant
deriving DecidableEq

/-- `SpdxExpression::parse` (`src/expression.rs` lines 47–52): delegate to
`ExpressionVariant::parse`, wrapping an inner error's rendered description into
`SpdxExpressionError::Parse`. -/
def SpdxExpression.parse (expression : String) : Except SpdxExpressionError SpdxExpression :=
  match ExpressionVariant.parse expression with
  | .ok inner => .ok ⟨inner⟩
  | .error err => .error (.Parse (toString err))

/-- `Display for SpdxExpression` (`src/expression.rs` lines 80–84): delegates to
the inner tree's `Display`. -/
instance : ToString SpdxExpression := ⟨fun e => toString e.inner⟩

/-- `str::split_ascii_whitespace`: maximal runs of non-whitespace characters,
no empty tokens.  Loop with the pending run in `acc`. -/
def splitWsGo (acc : List Char) : List Char → List String
  | [] =>
    match acc with
    | [] => []
    | _ :: _ => [String.mk acc]
  | c :: cs =>
    if isAsciiWs c then
      match acc with
      | [] => splitWsGo [] cs
      | _ :: _ => String.mk acc :: splitWsGo [] cs
    else splitWsGo (acc ++ [c]) cs

/-- `str::split_ascii_whitespace` on a string. -/
def splitAsciiWs (s : String) : List String := splitWsGo [] s.data

/-- `i.replace('(', "").replace(')', "")`: replacing single characters by the
empty string removes every occurrence, i.e. filters them out of the character
sequence. -/
def stripParens (t : String) : String :=
  String.mk (t.data.filter (fun c => !(c = '(' || c = ')')))

/-- Lexicographic (codepoint) order on character lists, as `Ord for String` in
Rust orders strings (byte order; identical on the characters that occur here). -/
def strLe : List Char → List Char → Bool
  | [], _ => true
  | _ :: _, [] => false
  | a :: as, b :: bs => decide (a < b) || (decide (a = b) && strLe as bs)

/-- Ordered insertion used by `sortStrings`. -/
def insertLe (x : String) : List String → List String
  | [] => [x]
  | y :: ys => if strLe x.data y.data then x :: y :: ys else y :: insertLe x ys

/-- `Vec::sort_unstable` with `String`'s lexicographic order (any correct sort
produces the same list, since the order is total and antisymmetric). -/
def sortStrings : List String → List String
  | [] => []
  | x :: xs => insertLe x (sortStrings xs)

/-- `Vec::dedup`: remove *consecutive* repeated elements. -/
def dedupAdjacent : List String → List String
  | [] => []
  | [a] => [a]
  | a :: b :: t => if a = b then dedupAdjacent (b :: t) else a :: dedupAdjacent (b :: t)

/-- `SpdxExpression::licenses` (`src/expression.rs` lines 68–77): render the
expression, split on ASCII whitespace, drop the tokens `"OR"`, `"AND"`,
`"WITH"`, remove `(` and `)` from each token, sort and dedup. -/
def SpdxExpression.licenses (self : SpdxExpression) : List String :=
  let expression_string := toString self
  let licenses1 := splitAsciiWs expression_string
  let licenses2 := licenses1.filter (fun i => !(i = "OR" || i = "AND" || i = "WITH"))
  let licenses3 := licenses2.map stripParens
  dedupAdjacent (sortStrings licenses3)

/-- The reference pipeline in the specification's words (4.3): tokenize the
canonical rendering on whitespace, drop the three operator keywords
`AND`/`OR`/`WITH`, strip parenthesis characters from each remaining token, sort
lexicographically and remove duplicates. -/
def licensesFromRenderedText (s : String) : List String :=
  let toks := splitAsciiWs s
  let kept := toks.filter (fun t => !(t = "AND" || t = "OR" || t = "WITH"))
  let strippedToks := kept.map stripParens
  (sortStrings strippedToks).dedup

/-! ## Grammar derivations

Derivations of the grammar of 4.1, used to state and prove the round-trip
property: `GOr` is an or-expression (a first and-expression followed by an
`OR`-separated chain), `GAnd` an and-expression (a first with-expression
followed by an `AND`-separated chain), `GWith` an atom optionally followed by
`WITH exception`, and `GAtom` a parenthesized group, a bare identifier, or a
reserved constant.  The chains are kept in source order (head first). -/

mutual
inductive GOr where
  | mk (first : GAnd) (rest : GOrTail)
inductive GOrTail where
  | nil
  | cons (a : GAnd) (t : GOrTail)
inductive GAnd where
  | mk (first : GWith) (rest : GAndTail)
inductive GAndTail where
  | nil
  | cons (w : GWith) (t : GAndTail)
inductive GWith where
  | atom (a : GAtom)
  | withx (a : GAtom) (x : String)
inductive GAtom where
  | group (e : GOr)
  | lic (w : String)
  | noneT
  | noassertT
end

/- The expression tree built by a derivation (left-associative chains). -/
mutual
def GOr.toExpr : GOr → ExpressionVariant
  | .mk a t => GOrTail.fold (GAnd.toExpr a) t
def GOrTail.fold (acc : ExpressionVariant) : GOrTail → ExpressionVariant
  | .nil => acc
  | .cons a t => GOrTail.fold (.orE acc (GAnd.toExpr a)) t
def GAnd.toExpr : GAnd → ExpressionVariant
  | .mk w t => GAndTail.fold (GWith.toExpr w) t
def GAndTail.fold (acc : ExpressionVariant) : GAndTail → ExpressionVariant
  | .nil => acc
  | .cons w t => GAndTail.fold (.andE acc (GWith.toExpr w)) t
def GWith.toExpr : GWith → ExpressionVariant
  | .atom a => GAtom.toExpr a
  | .withx a x => .withE (GAtom.toExpr a) x
def GAtom.toExpr : GAtom → ExpressionVariant
  | .group e => .paren (GOr.toExpr e)
  | .lic w => .simple w
  | .noneT => .noneE
  | .noassertT => .noAssertion
end

/- The token sequence of a derivation. -/
mutual
def GOr.toks : GOr → List Token
  | .mk a t => GAnd.toks a ++ GOrTail.toks t
def GOrTail.toks : GOrTail → List Token
  | .nil => []
  | .cons a t => .opOr :: (GAnd.toks a ++ GOrTail.toks t)
def GAnd.toks : GAnd → List Token
  | .mk w t => GWith.toks w ++ GAndTail.toks t
def GAndTail.toks : GAndTail → List Token
  | .nil => []
  | .cons w t => .opAnd :: (GWith.toks w ++ GAndTail.toks t)
def GWith.toks : GWith → List Token
  | .atom a => GAtom.toks a
  | .withx a x => GAtom.toks a ++ [.opWith, .ident x]
def GAtom.toks : GAtom → List Token
  | .group e => .lparen :: (GOr.toks e ++ [.rparen])
  | .lic w => [.ident w]
  | .noneT => [.ident "NONE"]
  | .noassertT => [.ident "NOASSERTION"]
end

/- The canonically spaced character sequence of a derivation: tokens separated
by single spaces, parentheses glued to their group. -/
mutual
def GOr.chars : GOr → List Char
  | .mk a t => GAnd.chars a ++ GOrTail.chars t
def GOrTail.chars : GOrTail → List Char
  | .nil => []
  | .cons a t => ' ' :: 'O' :: 'R' :: ' ' :: (GAnd.chars a ++ GOrTail.chars t)
def GAnd.chars : GAnd → List Char
  | .mk w t => GWith.chars w ++ GAndTail.chars t
def GAndTail.chars : GAndTail → List Char
  | .nil => []
  | .cons w t => ' ' :: 'A' :: 'N' :: 'D' :: ' ' :: (GWith.chars w ++ GAndTail.chars t)
def GWith.chars : GWith → List Char
  | .atom a => GAtom.chars a
  | .withx a x => GAtom.chars a ++ (' ' :: 'W' :: 'I' :: 'T' :: 'H' :: ' ' :: x.data)
def GAtom.chars : GAtom → List Char
  | .group e => '(' :: (GOr.chars e ++ [')'])
  | .lic w => w.data
  | .noneT => ['N', 'O', 'N', 'E']
  | .noassertT => ['N', 'O', 'A', 'S', 'S', 'E', 'R', 'T', 'I', 'O', 'N']
end

/- Parser fuel needed for a derivation (each `parseF` call consumes one unit). -/
mutual
def GOr.fsize : GOr → Nat
  | .mk a t => GAnd.fsize a + GOrTail.fsize t + 1
def GOrTail.fsize : GOrTail → Nat
  | .nil => 0
  | .cons a t => GAnd.fsize a + GOrTail.fsize t + 1
def GAnd.fsize : GAnd → Nat
  | .mk w t => GWith.fsize w + GAndTail.fsize t + 1
def GAndTail.fsize : GAndTail → Nat
  | .nil => 0
  | .cons w t => GWith.fsize w + GAndTail.fsize t + 1
def GWith.fsize : GWith → Nat
  | .atom a => GAtom.fsize a + 1
  | .withx a _ => GAtom.fsize a + 1
def GAtom.fsize : GAtom → Nat
  | .group e => GOr.fsize e + 1
  | .lic _ => 0
  | .noneT => 0
  | .noassertT => 0
end

/-- A bare license identifier as the parser accepts it at atom position:
well-formed and not one of the reserved whole words. -/
def okLicId (w : String) : Bool :=
  validId w && !(w = "NONE" || w = "NOASSERTION" || w = "AND" || w = "OR" || w = "WITH")

/-- An exception identifier as the parser accepts it after `WITH`: well-formed
and not an operator keyword. -/
def okExcId (x : String) : Bool :=
  validId x && !(x = "AND" || x = "OR" || x = "WITH")

/- Well-formedness of a derivation: every identifier is acceptable. -/
mutual
def GOr.wf : GOr → Bool
  | .mk a t => GAnd.wf a && GOrTail.wf t
def GOrTail.wf : GOrTail → Bool
  | .nil => true
  | .cons a t => GAnd.wf a && GOrTail.wf t
def GAnd.wf : GAnd → Bool
  | .mk w t => GWith.wf w && GAndTail.wf t
def GAndTail.wf : GAndTail → Bool
  | .nil => true
  | .cons w t => GWith.wf w && GAndTail.wf t
def GWith.wf : GWith → Bool
  | .atom a => GAtom.wf a
  | .withx a x => GAtom.wf a && okExcId x
def GAtom.wf : GAtom → Bool
  | .group e => GOr.wf e
  | .lic w => okLicId w
  | .noneT => true
  | .noassertT => true
end

/-- A string is a syntactically valid expression in canonical spacing exactly
when it is the canonical rendering of (the tree of) some well-formed grammar
derivation. -/
def CanonicalValid (s : String) : Prop :=
  ∃ g : GOr, GOr.wf g = true ∧ toString (SpdxExpression.mk (GOr.toExpr g)) = s

/-- The first character (if any) of the list ends a word: the interface
condition of the tokenizer lemmas. -/
def headBreak : List Char → Prop
  | [] => True
  | c :: _ => wordBreak c = true

/-- Every identifier stored in a tree is a valid identifier token (the parser
only ever builds such trees). -/
def goodIds : ExpressionVariant → Bool
  | .noneE => true
  | .noAssertion => true
  | .simple w => validId w
  | .andE l r => goodIds l && goodIds r
  | .orE l r => goodIds l && goodIds r
  | .withE l x => goodIds l && validId x
  | .paren e => goodIds e

/-- Any loop accumulator carried by a parser mode has good identifiers. -/
def modeGood : PMode → Bool
  | .mAndLoop acc => goodIds acc
  | .mOrLoop acc => goodIds acc
  | _ => true

/-- The characters that can occur in a canonical rendering. -/
def cOk (c : Char) : Prop := idChar c = true ∨ c = '(' ∨ c = ')' ∨ c = ' '

/-- Adjacency invariant of canonical renderings: an opening parenthesis is
followed by another opening parenthesis or an identifier character, and a
closing parenthesis is preceded by another closing parenthesis or an
identifier character. -/
def okPair (a b : Char) : Prop :=
  (a = '(' → (b = '(' ∨ idChar b = true)) ∧ (b = ')' → (a = ')' ∨ idChar a = true))

/-- Shape invariants of the character list of a canonical rendering: non-empty,
over the rendering alphabet, adjacency-correct, starting with `(` or an
identifier character, ending with `)` or an identifier character. -/
def RProps (d : List Char) : Prop :=
  d ≠ [] ∧ (∀ c ∈ d, cOk c) ∧ List.Chain' okPair d ∧
    (∀ c ∈ d.head?, c = '(' ∨ idChar c = true) ∧
    (∀ c ∈ d.getLast?, c = ')' ∨ idChar c = true)

/-- The lexicographic order on strings as a relation (for sortedness statements). -/
def leRel (a b : String) : Prop := strLe a.data b.data = true

/-- Strictly increasing: ordered and distinct (sortedness plus deduplication). -/
def ltNeRel (a b : String) : Prop := leRel a b ∧ a ≠ b

/-! ## Theorems -/

theorem strLe_total : ∀ a b : List Char, strLe a b = true ∨ strLe b a = true
  | [], _ => .inl rfl
  | _ :: _, [] => .inr rfl
  | a :: as, b :: bs => by
    rcases lt_trichotomy a b with h | h | h
    · left
      simp [strLe, h]
    · subst h
      rcases strLe_total as bs with ih | ih
      · left
        simp [strLe, ih]
      · right
        simp [strLe, ih]
    · right
      simp [strLe, h]

theorem strLe_trans : ∀ a b c : List Char,
    strLe a b = true → strLe b c = true → strLe a c = true
  | [], _, _ => fun _ _ => rfl
  | _ :: _, [], _ => fun h _ => by simp [strLe] at h
  | _ :: _, _ :: _, [] => fun _ h => by simp [strLe] at h
  | a :: as, b :: bs, c :: cs => by
    intro h1 h2
    simp only [strLe, Bool.or_eq_true, Bool.and_eq_true, decide_eq_true_eq] at h1 h2 ⊢
    rcases h1 with h1 | ⟨rfl, h1⟩
    · rcases h2 with h2 | ⟨rfl, h2⟩
      · exact .inl (lt_trans h1 h2)
      · exact .inl h1
    · rcases h2 with h2 | ⟨rfl, h2⟩
      · exact .inl h2
      · exact .inr ⟨rfl, strLe_trans as bs cs h1 h2⟩

theorem strLe_antisymm : ∀ a b : List Char,
    strLe a b = true → strLe b a = true → a = b
  | [], [] => fun _ _ => rfl
  | [], _ :: _ => fun _ h => by simp [strLe] at h
  | _ :: _, [] => fun h _ => by simp [strLe] at h
  | a :: as, b :: bs => by
    intro h1 h2
    simp only [strLe, Bool.or_eq_true, Bool.and_eq_true, decide_eq_true_eq] at h1 h2
    rcases h1 with h1 | ⟨rfl, h1⟩
    · rcases h2 with h2 | ⟨h, _⟩
      · exact absurd (lt_trans h1 h2) (lt_irrefl a)
      · exact absurd h1 (h ▸ lt_irrefl b)
    · rcases h2 with h2 | ⟨_, h2⟩
      · exact absurd h2 (lt_irrefl a)
      · rw [strLe_antisymm as bs h1 h2]

theorem leRel_total (a b : String) : leRel a b ∨ leRel b a :=
  strLe_total a.data b.data

theorem leRel_antisymm {a b : String} (h1 : leRel a b) (h2 : leRel b a) : a = b := by
  cases a with
  | mk da =>
    cases b with
    | mk db =>
      have h := strLe_antisymm da db h1 h2
      rw [h]

theorem chain'_insertLe (x : String) :
    ∀ l, List.Chain' leRel l → List.Chain' leRel (insertLe x l)
  | [] => fun _ => by simp [insertLe]
  | y :: ys => fun h => by
    by_cases hx : strLe x.data y.data = true
    · simp only [insertLe, hx, if_true]
      rw [List.chain'_cons]
      exact ⟨hx, h⟩
    · simp only [insertLe, hx, if_false, Bool.false_eq_true]
      have hyx : leRel y x := (leRel_total x y).resolve_left hx
      have htail := chain'_insertLe x ys h.tail
      rcases ys with _ | ⟨z, zs⟩
      · simp only [insertLe]
        rw [List.chain'_cons]
        exact ⟨hyx, List.chain'_singleton x⟩
      · by_cases hz : strLe x.data z.data = true
        · simp only [insertLe, hz, if_true] at htail ⊢
          rw [List.chain'_cons]
          exact ⟨hyx, htail⟩
        · simp only [insertLe, hz, if_false, Bool.false_eq_true] at htail ⊢
          rw [List.chain'_cons]
          exact ⟨(List.chain'_cons.mp h).1, htail⟩

theorem chain'_sortStrings : ∀ l : List String, List.Chain' leRel (sortStrings l)
  | [] => List.chain'_nil
  | x :: xs => chain'_insertLe x _ (chain'_sortStrings xs)

theorem dedupAdjacent_head : ∀ (t : List String) (b : String),
    (dedupAdjacent (b :: t)).head? = some b
  | [], _ => rfl
  | c :: t', b => by
    by_cases h : b = c
    · subst h
      simpa [dedupAdjacent] using dedupAdjacent_head t' b
    · simp [dedupAdjacent, h]

theorem chain'_dedupAdjacent :
    ∀ l, List.Chain' leRel l → List.Chain' ltNeRel (dedupAdjacent l)
  | [] => fun _ => List.chain'_nil
  | [a] => fun _ => by
    simp [dedupAdjacent]
  | a :: b :: t => fun h => by
    have hab := (List.chain'_cons.mp h).1
    have htail := (List.chain'_cons.mp h).2
    have hrec := chain'_dedupAdjacent (b :: t) htail
    by_cases heq : a = b
    · simpa [dedupAdjacent, heq] using hrec
    · simp only [dedupAdjacent, heq, if_false]
      have hd := dedupAdjacent_head t b
      cases hdd : dedupAdjacent (b :: t) with
      | nil => exact List.chain'_singleton a
      | cons c cs =>
        rw [hdd] at hd hrec
        have hc : c = b := by
          simpa using hd
        rw [List.chain'_cons]
        subst hc
        exact ⟨⟨hab, heq⟩, hrec⟩

theorem dedupAdjacent_eq_dedup :
    ∀ l, List.Chain' leRel l → dedupAdjacent l = l.dedup
  | [] => fun _ => rfl
  | [a] => fun _ => by simp [dedupAdjacent]
  | a :: b :: t => fun h => by
    haveI : IsTrans String leRel := ⟨fun x y z => strLe_trans x.data y.data z.data⟩
    have hab := (List.chain'_cons.mp h).1
    have htail := (List.chain'_cons.mp h).2
    have ih := dedupAdjacent_eq_dedup (b :: t) htail
    by_cases heq : a = b
    · subst heq
      rw [show dedupAdjacent (a :: a :: t) = dedupAdjacent (a :: t) by
        simp [dedupAdjacent]]
      rw [ih]
      exact (List.dedup_cons_of_mem (by simp)).symm
    · rw [show dedupAdjacent (a :: b :: t) = a :: dedupAdjacent (b :: t) by
        simp [dedupAdjacent, heq]]
      have hnotmem : a ∉ b :: t := by
        intro hmem
        have hpairbt := List.chain'_iff_pairwise.mp htail
        rcases List.mem_cons.mp hmem with h1 | hmem_t
        · exact heq h1
        · have hba : leRel b a := (List.rel_of_pairwise_cons hpairbt) hmem_t
          exact heq (leRel_antisymm hab hba)
      rw [ih, List.dedup_cons_of_not_mem hnotmem]

/-- C4: `parse("A OR B AND C")` groups as `OR(A, AND(B, C))` (`AND` binds
tighter than `OR`) and renders back to `"A OR B AND C"` with no added
parentheses. -/
theorem c4_precedence_and_over_or :
    SpdxExpression.parse "A OR B AND C" =
      .ok ⟨.orE (.simple "A") (.andE (.simple "B") (.simple "C"))⟩ ∧
    toString (SpdxExpression.mk
      (.orE (.simple "A") (.andE (.simple "B") (.simple "C")))) = "A OR B AND C" := by
  constructor
  · rfl
  · rfl

/-- C5: `parse("A WITH B OR C")` parses `A WITH B` as one unit: the `WITH` node
(whose right-hand side is the bare exception identifier string `"B"`, not a
sub-expression) is the left operand of the top-level `OR`, whose right operand
is `C`. -/
theorem c5_with_binds_tighter :
    SpdxExpression.parse "A WITH B OR C" =
      .ok ⟨.orE (.withE (.simple "A") "B") (.simple "C")⟩ := by
  rfl

/-- C6: `parse("(A OR B) AND C")` succeeds, renders back with the parenthesized
`(A OR B)` intact, and its tree differs structurally from the tree of
`parse("A OR B AND C")`. -/
theorem c6_explicit_grouping_preserved :
    SpdxExpression.parse "(A OR B) AND C" =
      .ok ⟨.andE (.paren (.orE (.simple "A") (.simple "B"))) (.simple "C")⟩ ∧
    toString (SpdxExpression.mk
      (.andE (.paren (.orE (.simple "A") (.simple "B"))) (.simple "C"))) =
      "(A OR B)" ++ " AND C" ∧
    SpdxExpression.parse "A OR B AND C" =
      .ok ⟨.orE (.simple "A") (.andE (.simple "B") (.simple "C"))⟩ ∧
    (SpdxExpression.mk (.andE (.paren (.orE (.simple "A") (.simple "B"))) (.simple "C"))) ≠
      ⟨.orE (.simple "A") (.andE (.simple "B") (.simple "C"))⟩ := by
  refine ⟨rfl, rfl, rfl, ?_⟩
  decide

/-- C7: the malformed inputs `"MIT AND"`, `"MIT OR OR Apache-2.0"` and `"(MIT"`
each fail with a parse error, and parsing never returns both an error and an
expression for the same input (no partial result). -/
theorem c7_invalid_syntax_rejected :
    (∃ m, SpdxExpression.parse "MIT AND" = .error (.Parse m)) ∧
    (∃ m, SpdxExpression.parse "MIT OR OR Apache-2.0" = .error (.Parse m)) ∧
    (∃ m, SpdxExpression.parse "(MIT" = .error (.Parse m)) ∧
    ∀ s : String, ¬((∃ e, SpdxExpression.parse s = .ok e) ∧
      (∃ err, SpdxExpression.parse s = .error err)) := by
  refine ⟨⟨"invalid SPDX expression", rfl⟩, ⟨"invalid SPDX expression", rfl⟩,
    ⟨"invalid SPDX expression", rfl⟩, ?_⟩
  rintro s ⟨⟨e, he⟩, ⟨err, herr⟩⟩
  rw [he] at herr
  exact Except.noConfusion herr

/-- C7 witness: the no-partial-result clause instantiated at the concrete input
`"MIT"`. -/
theorem c7_invalid_syntax_rejected_witness :
    ¬((∃ e, SpdxExpression.parse "MIT" = .ok e) ∧
      (∃ err, SpdxExpression.parse "MIT" = .error err)) :=
  c7_invalid_syntax_rejected.2.2.2 "MIT"

/-- C8: the wrapper's `parse` maps an inner failure to the single visible error
kind `Parse` carrying exactly the inner error's rendered description, and maps
an inner success to `Ok` wrapping the tree unchanged; moreover every
`SpdxExpressionError` is of the `Parse` kind. -/
theorem c8_error_wrapping :
    (∀ s err, ExpressionVariant.parse s = .error err →
      SpdxExpression.parse s = .error (.Parse (toString err))) ∧
    (∀ s v, ExpressionVariant.parse s = .ok v →
      SpdxExpression.parse s = .ok ⟨v⟩) ∧
    (∀ e : SpdxExpressionError, ∃ m, e = .Parse m) := by
  refine ⟨?_, ?_, ?_⟩
  · intro s err h
    unfold SpdxExpression.parse
    rw [h]
  · intro s v h
    unfold SpdxExpression.parse
    rw [h]
  · intro e
    cases e with
    | Parse m => exact ⟨m, rfl⟩

/-- C8 witness: the two clauses instantiated at the concrete inputs `"(MIT"`
(inner failure) and `"MIT"` (inner success). -/
theorem c8_error_wrapping_witness :
    SpdxExpression.parse "(MIT" = .error (.Parse (toString (⟨"invalid SPDX expression"⟩ : ParseError))) ∧
    SpdxExpression.parse "MIT" = .ok ⟨.simple "MIT"⟩ :=
  ⟨c8_error_wrapping.1 "(MIT" ⟨"invalid SPDX expression"⟩ rfl,
   c8_error_wrapping.2.1 "MIT" (.simple "MIT") rfl⟩

/-- C10: `licenses` is a deterministic function of the canonical rendering
alone: expressions with equal renderings have equal `licenses`, and repeated
evaluation yields the same list. -/
theorem c10_licenses_function_of_rendering :
    (∀ e1 e2 : SpdxExpression, toString e1 = toString e2 →
      e1.licenses = e2.licenses) ∧
    (∀ e : SpdxExpression, e.licenses = e.licenses) := by
  constructor
  · intro e1 e2 h
    unfold SpdxExpression.licenses
    rw [h]
  · intro e
    rfl

/-- C10 witness: two syntactically identical parses render equally, hence have
equal license lists. -/
theorem c10_licenses_function_of_rendering_witness :
    (SpdxExpression.mk (.simple "MIT")).licenses =
      (SpdxExpression.mk (.simple "MIT")).licenses :=
  c10_licenses_function_of_rendering.1 ⟨.simple "MIT"⟩ ⟨.simple "MIT"⟩ rfl

/-- C1 counterexample: contrary to the claim, the reserved constant `NONE` does
appear in the output of `licenses()`: `parse("NONE")` succeeds and its
`licenses()` contains `"NONE"` (only the operator keywords `AND`/`OR`/`WITH`
are filtered out, not the constants). -/
theorem c1_counterexample_none_in_licenses :
    ∃ ex, SpdxExpression.parse "NONE" = .ok ex ∧ "NONE" ∈ ex.licenses :=
  ⟨⟨.noneE⟩, rfl, by decide⟩

/-- C1 (amended): `licenses()` returns the identifier tokens of the rendered
expression alphabetically sorted and deduplicated (strictly increasing), but the
reserved constants `NONE` and `NOASSERTION` *do* appear in the output when the
expression contains them: `parse("NONE")` and `parse("NOASSERTION")` yield
expressions whose `licenses()` is exactly the constant. -/
theorem c1_licenses_sorted_dedup_constants_included :
    (∀ e : SpdxExpression, List.Chain' ltNeRel e.licenses) ∧
    (∃ ex, SpdxExpression.parse "NONE" = .ok ex ∧ ex.licenses = ["NONE"]) ∧
    (∃ ex, SpdxExpression.parse "NOASSERTION" = .ok ex ∧ ex.licenses = ["NOASSERTION"]) := by
  refine ⟨?_, ⟨⟨.noneE⟩, rfl, rfl⟩, ⟨⟨.noAssertion⟩, rfl, rfl⟩⟩
  intro e
  exact chain'_dedupAdjacent _ (chain'_sortStrings _)

/-- C2: `licenses()` coincides with the specification's reference pipeline
applied to the canonical rendering (split on whitespace, drop the operator
keywords, strip parentheses, sort, remove duplicates), and on the nested
example expression it returns the five identifiers in sorted order. -/
theorem c2_licenses_equals_reference_pipeline :
    (∀ e : SpdxExpression, e.licenses = licensesFromRenderedText (toString e)) ∧
    (∃ ex, SpdxExpression.parse
        "(MIT OR Apache-2.0 AND (GPL-2.0-only WITH Classpath-exception-2.0 OR ISC))" =
        .ok ex ∧
      ex.licenses = ["Apache-2.0", "Classpath-exception-2.0", "GPL-2.0-only", "ISC", "MIT"]) := by
  constructor
  · intro e
    unfold SpdxExpression.licenses licensesFromRenderedText
    have hpred : (fun i : String => !(i = "OR" || i = "AND" || i = "WITH")) =
        (fun t : String => !(t = "AND" || t = "OR" || t = "WITH")) := by
      funext t
      by_cases h1 : t = "OR" <;> by_cases h2 : t = "AND" <;> by_cases h3 : t = "WITH" <;>
        simp [h1, h2, h3]
    rw [hpred]
    exact dedupAdjacent_eq_dedup _ (chain'_sortStrings _)
  · exact ⟨⟨.paren (.orE (.simple "MIT") (.andE (.simple "Apache-2.0")
      (.paren (.orE (.withE (.simple "GPL-2.0-only") "Classpath-exception-2.0")
        (.simple "ISC")))))⟩, rfl, rfl⟩

theorem break_not_idChar : ∀ c : Char, wordBreak c = true → idChar c = false := by
  intro c hb
  have hc : c = '(' ∨ c = ')' ∨ c = ' ' ∨ c = '\t' ∨ c = '\n' ∨ c = '\x0c' ∨ c = '\r' := by
    simp only [wordBreak, isAsciiWs, Bool.or_eq_true, decide_eq_true_eq] at hb
    tauto
  rcases hc with rfl | rfl | rfl | rfl | rfl | rfl | rfl <;> decide

theorem idChar_not_break {c : Char} (h : idChar c = true) : wordBreak c = false := by
  cases hw : wordBreak c with
  | false => rfl
  | true =>
    rw [break_not_idChar c hw] at h
    simp at h

theorem tokGo_word : ∀ (w acc cs : List Char),
    (∀ c ∈ w, wordBreak c = false) →
    tokGo acc (w ++ cs) = tokGo (acc ++ w) cs
  | [], acc, cs => fun _ => by simp
  | c :: w', acc, cs => fun h => by
    have hc := h c (List.mem_cons_self c w')
    simp only [wordBreak, Bool.or_eq_false_iff, decide_eq_false_iff_not] at hc
    obtain ⟨⟨h1, h2⟩, h3⟩ := hc
    show tokGo acc (c :: (w' ++ cs)) = _
    rw [show tokGo acc (c :: (w' ++ cs)) = tokGo (acc ++ [c]) (w' ++ cs) by
      simp [tokGo, h1, h2, h3]]
    rw [tokGo_word w' (acc ++ [c]) cs (fun d hd => h d (List.mem_cons_of_mem c hd))]
    simp

theorem tokGo_flush : ∀ (acc rest : List Char), acc ≠ [] → headBreak rest →
    tokGo acc rest = classify (String.mk acc) :: tokGo [] rest := by
  intro acc rest hacc hr
  match acc, rest with
  | [], _ => exact absurd rfl hacc
  | a :: acc', [] => simp [tokGo, flushTok]
  | a :: acc', c :: cs =>
    have hc : c = '(' ∨ c = ')' ∨ isAsciiWs c = true := by
      simp only [headBreak, wordBreak, Bool.or_eq_true, decide_eq_true_eq] at hr
      tauto
    rcases hc with rfl | rfl | hws
    · simp [tokGo, flushTok]
    · simp [tokGo, flushTok]
    · have h1 : ¬(c = '(') := by
        rintro rfl
        simp [isAsciiWs] at hws
      have h2 : ¬(c = ')') := by
        rintro rfl
        simp [isAsciiWs] at hws
      simp [tokGo, flushTok, h1, h2, hws]

theorem tokGo_ws {c : Char} (hc : isAsciiWs c = true) (cs : List Char) :
    tokGo [] (c :: cs) = tokGo [] cs := by
  have h1 : ¬(c = '(') := by
    rintro rfl
    simp [isAsciiWs] at hc
  have h2 : ¬(c = ')') := by
    rintro rfl
    simp [isAsciiWs] at hc
  simp [tokGo, flushTok, h1, h2, hc]

theorem tokGo_validWord (w : String) (rest : List Char) (hw : validId w = true)
    (hr : headBreak rest) :
    tokGo [] (w.data ++ rest) = classify w :: tokGo [] rest := by
  obtain ⟨hne, hall⟩ := (Bool.and_eq_true _ _).mp hw
  have hnb : ∀ c ∈ w.data, wordBreak c = false := by
    intro c hc
    exact idChar_not_break (List.all_eq_true.mp hall c hc)
  have hne' : w.data ≠ [] := by
    simp only [Bool.not_eq_true'] at hne
    simpa [List.isEmpty_iff] using hne
  have hmk : String.mk w.data = w := by
    cases w
    rfl
  rw [tokGo_word w.data [] rest hnb, List.nil_append,
    tokGo_flush w.data rest hne' hr, hmk]

mutual

theorem tokSpecOr : ∀ (g : GOr) (rest : List Char), GOr.wf g = true → headBreak rest →
    tokGo [] (GOr.chars g ++ rest) = GOr.toks g ++ tokGo [] rest
  | .mk a t, rest => fun hwf hr => by
    obtain ⟨hwa, hwt⟩ := (Bool.and_eq_true _ _).mp hwf
    have hb : headBreak (GOrTail.chars t ++ rest) := by
      cases t with
      | nil => simpa [GOrTail.chars] using hr
      | cons a' t' => simp [GOrTail.chars, headBreak, wordBreak, isAsciiWs]
    show tokGo [] ((GAnd.chars a ++ GOrTail.chars t) ++ rest) = _
    rw [List.append_assoc, tokSpecAnd a _ hwa hb, tokSpecOrTail t rest hwt hr]
    simp [GOr.toks]

theorem tokSpecOrTail : ∀ (t : GOrTail) (rest : List Char),
    GOrTail.wf t = true → headBreak rest →
    tokGo [] (GOrTail.chars t ++ rest) = GOrTail.toks t ++ tokGo [] rest
  | .nil, rest => fun _ _ => by simp [GOrTail.chars, GOrTail.toks]
  | .cons a t, rest => fun hwf hr => by
    obtain ⟨hwa, hwt⟩ := (Bool.and_eq_true _ _).mp hwf
    have hb : headBreak (GOrTail.chars t ++ rest) := by
      cases t with
      | nil => simpa [GOrTail.chars] using hr
      | cons a' t' => simp [GOrTail.chars, headBreak, wordBreak, isAsciiWs]
    show tokGo []
      (' ' :: 'O' :: 'R' :: ' ' :: ((GAnd.chars a ++ GOrTail.chars t) ++ rest)) = _
    rw [tokGo_ws (by decide)]
    rw [show ('O' :: 'R' :: ' ' :: ((GAnd.chars a ++ GOrTail.chars t) ++ rest)) =
      ("OR".data ++ (' ' :: ((GAnd.chars a ++ GOrTail.chars t) ++ rest))) from rfl]
    rw [tokGo_validWord "OR" _ (by decide) (by simp [headBreak, wordBreak, isAsciiWs])]
    rw [tokGo_ws (by decide)]
    rw [List.append_assoc, tokSpecAnd a _ hwa hb, tokSpecOrTail t rest hwt hr]
    simp [GOrTail.toks, show classify "OR" = Token.opOr from rfl]

theorem tokSpecAnd : ∀ (g : GAnd) (rest : List Char), GAnd.wf g = true → headBreak rest →
    tokGo [] (GAnd.chars g ++ rest) = GAnd.toks g ++ tokGo [] rest
  | .mk w t, rest => fun hwf hr => by
    obtain ⟨hww, hwt⟩ := (Bool.and_eq_true _ _).mp hwf
    have hb : headBreak (GAndTail.chars t ++ rest) := by
      cases t with
      | nil => simpa [GAndTail.chars] using hr
      | cons w' t' => simp [GAndTail.chars, headBreak, wordBreak, isAsciiWs]
    show tokGo [] ((GWith.chars w ++ GAndTail.chars t) ++ rest) = _
    rw [List.append_assoc, tokSpecWith w _ hww hb, tokSpecAndTail t rest hwt hr]
    simp [GAnd.toks]

theorem tokSpecAndTail : ∀ (t : GAndTail) (rest : List Char),
    GAndTail.wf t = true → headBreak rest →
    tokGo [] (GAndTail.chars t ++ rest) = GAndTail.toks t ++ tokGo [] rest
  | .nil, rest => fun _ _ => by simp [GAndTail.chars, GAndTail.toks]
  | .cons w t, rest => fun hwf hr => by
    obtain ⟨hww, hwt⟩ := (Bool.and_eq_true _ _).mp hwf
    have hb : headBreak (GAndTail.chars t ++ rest) := by
      cases t with
      | nil => simpa [GAndTail.chars] using hr
      | cons w' t' => simp [GAndTail.chars, headBreak, wordBreak, isAsciiWs]
    show tokGo []
      (' ' :: 'A' :: 'N' :: 'D' :: ' ' :: ((GWith.chars w ++ GAndTail.chars t) ++ rest)) = _
    rw [tokGo_ws (by decide)]
    rw [show ('A' :: 'N' :: 'D' :: ' ' :: ((GWith.chars w ++ GAndTail.chars t) ++ rest)) =
      ("AND".data ++ (' ' :: ((GWith.chars w ++ GAndTail.chars t) ++ rest))) from rfl]
    rw [tokGo_validWord "AND" _ (by decide) (by simp [headBreak, wordBreak, isAsciiWs])]
    rw [tokGo_ws (by decide)]
    rw [List.append_assoc, tokSpecWith w _ hww hb, tokSpecAndTail t rest hwt hr]
    simp [GAndTail.toks, show classify "AND" = Token.opAnd from rfl]

theorem tokSpecWith : ∀ (g : GWith) (rest : List Char), GWith.wf g = true → headBreak rest →
    tokGo [] (GWith.chars g ++ rest) = GWith.toks g ++ tokGo [] rest
  | .atom a, rest => fun hwf hr => tokSpecAtom a rest hwf hr
  | .withx a x, rest => fun hwf hr => by
    obtain ⟨hwa, hx⟩ := (Bool.and_eq_true _ _).mp hwf
    obtain ⟨hxv, hxne⟩ := (Bool.and_eq_true _ _).mp hx
    show tokGo [] ((GAtom.chars a ++ (' ' :: 'W' :: 'I' :: 'T' :: 'H' :: ' ' :: x.data)) ++ rest) = _
    rw [List.append_assoc, tokSpecAtom a _ hwa (by simp [headBreak, wordBreak, isAsciiWs])]
    rw [show ((' ' :: 'W' :: 'I' :: 'T' :: 'H' :: ' ' :: x.data) ++ rest) =
      (' ' :: 'W' :: 'I' :: 'T' :: 'H' :: ' ' :: (x.data ++ rest)) from rfl]
    rw [tokGo_ws (by decide)]
    rw [show ('W' :: 'I' :: 'T' :: 'H' :: ' ' :: (x.data ++ rest)) =
      ("WITH".data ++ (' ' :: (x.data ++ rest))) from rfl]
    rw [tokGo_validWord "WITH" _ (by decide) (by simp [headBreak, wordBreak, isAsciiWs])]
    rw [tokGo_ws (by decide)]
    rw [tokGo_validWord x rest hxv hr]
    have h3 : ¬(x = "AND") ∧ ¬(x = "OR") ∧ ¬(x = "WITH") := by
      simp only [Bool.not_eq_true', Bool.or_eq_false_iff, decide_eq_false_iff_not] at hxne
      tauto
    simp [GWith.toks, classify, h3.1, h3.2.1, h3.2.2,
      show classify "WITH" = Token.opWith from rfl]

theorem tokSpecAtom : ∀ (g : GAtom) (rest : List Char), GAtom.wf g = true → headBreak rest →
    tokGo [] (GAtom.chars g ++ rest) = GAtom.toks g ++ tokGo [] rest
  | .group e, rest => fun hwf hr => by
    show tokGo [] (('(' :: (GOr.chars e ++ [')'])) ++ rest) = _
    rw [show tokGo [] (('(' :: (GOr.chars e ++ [')'])) ++ rest) =
      Token.lparen :: tokGo [] ((GOr.chars e ++ [')']) ++ rest) by simp [tokGo, flushTok]]
    rw [List.append_assoc]
    rw [tokSpecOr e _ hwf (by simp [headBreak, wordBreak])]
    rw [show tokGo [] ([')'] ++ rest) = Token.rparen :: tokGo [] rest by
      simp [tokGo, flushTok]]
    simp [GAtom.toks]
  | .lic w, rest => fun hwf hr => by
    have hwf' : okLicId w = true := hwf
    obtain ⟨hv, hne⟩ := (Bool.and_eq_true _ _).mp hwf'
    show tokGo [] (w.data ++ rest) = _
    rw [tokGo_validWord w rest hv hr]
    have h5 : ¬(w = "NONE") ∧ ¬(w = "NOASSERTION") ∧ ¬(w = "AND") ∧ ¬(w = "OR") ∧
        ¬(w = "WITH") := by
      simp only [Bool.not_eq_true', Bool.or_eq_false_iff, decide_eq_false_iff_not] at hne
      tauto
    simp [GAtom.toks, classify, h5.2.2.1, h5.2.2.2.1, h5.2.2.2.2]
  | .noneT, rest => fun _ hr => by
    show tokGo [] ("NONE".data ++ rest) = _
    rw [tokGo_validWord "NONE" rest (by decide) hr]
    simp [GAtom.toks, show classify "NONE" = Token.ident "NONE" from rfl]
  | .noassertT, rest => fun _ hr => by
    show tokGo [] ("NOASSERTION".data ++ rest) = _
    rw [tokGo_validWord "NOASSERTION" rest (by decide) hr]
    simp [GAtom.toks, show classify "NOASSERTION" = Token.ident "NOASSERTION" from rfl]

end

mutual

theorem renderSpecAtom : ∀ (g : GAtom) (ctx : Nat),
    (ExpressionVariant.renderP (GAtom.toExpr g) ctx).data = GAtom.chars g
  | .group e, ctx => by
    show (ExpressionVariant.renderP (.paren (GOr.toExpr e)) ctx).data = _
    simp only [ExpressionVariant.renderP, String.data_append]
    rw [renderSpecOr e 1 (le_refl 1)]
    simp [GAtom.chars]
  | .lic w, _ => rfl
  | .noneT, _ => rfl
  | .noassertT, _ => rfl

theorem renderSpecWith : ∀ (g : GWith) (ctx : Nat), ctx ≤ 3 →
    (ExpressionVariant.renderP (GWith.toExpr g) ctx).data = GWith.chars g
  | .atom a, ctx => fun _ => renderSpecAtom a ctx
  | .withx a x, ctx => fun hctx => by
    show (ExpressionVariant.renderP (.withE (GAtom.toExpr a) x) ctx).data = _
    simp only [ExpressionVariant.renderP]
    rw [if_neg (by omega)]
    simp only [String.data_append]
    rw [renderSpecAtom a 4]
    simp [GWith.chars]

theorem renderSpecAndTail : ∀ (t : GAndTail) (acc : ExpressionVariant) (sacc : List Char),
    (∀ ctx2, ctx2 ≤ 2 → (ExpressionVariant.renderP acc ctx2).data = sacc) →
    ∀ ctx, ctx ≤ 2 →
    (ExpressionVariant.renderP (GAndTail.fold acc t) ctx).data = sacc ++ GAndTail.chars t
  | .nil, acc, sacc => fun hacc ctx hctx => by
    show (ExpressionVariant.renderP acc ctx).data = _
    rw [hacc ctx hctx]
    simp [GAndTail.chars]
  | .cons w t, acc, sacc => fun hacc ctx hctx => by
    have hacc2 : ∀ ctx2, ctx2 ≤ 2 →
        (ExpressionVariant.renderP (.andE acc (GWith.toExpr w)) ctx2).data =
          sacc ++ (' ' :: 'A' :: 'N' :: 'D' :: ' ' :: GWith.chars w) := by
      intro ctx2 hctx2
      simp only [ExpressionVariant.renderP]
      rw [if_neg (by omega)]
      simp only [String.data_append]
      rw [hacc 2 (by omega), renderSpecWith w 3 (by omega)]
      simp
    show (ExpressionVariant.renderP (GAndTail.fold (.andE acc (GWith.toExpr w)) t) ctx).data = _
    rw [renderSpecAndTail t _ _ hacc2 ctx hctx]
    simp [GAndTail.chars, List.append_assoc]

theorem renderSpecAnd : ∀ (g : GAnd) (ctx : Nat), ctx ≤ 2 →
    (ExpressionVariant.renderP (GAnd.toExpr g) ctx).data = GAnd.chars g
  | .mk w t, ctx => fun hctx => by
    show (ExpressionVariant.renderP (GAndTail.fold (GWith.toExpr w) t) ctx).data = _
    rw [renderSpecAndTail t (GWith.toExpr w) (GWith.chars w)
      (fun ctx2 h2 => renderSpecWith w ctx2 (by omega)) ctx hctx]
    simp [GAnd.chars]

theorem renderSpecOrTail : ∀ (t : GOrTail) (acc : ExpressionVariant) (sacc : List Char),
    (∀ ctx2, ctx2 ≤ 1 → (ExpressionVariant.renderP acc ctx2).data = sacc) →
    ∀ ctx, ctx ≤ 1 →
    (ExpressionVariant.renderP (GOrTail.fold acc t) ctx).data = sacc ++ GOrTail.chars t
  | .nil, acc, sacc => fun hacc ctx hctx => by
    show (ExpressionVariant.renderP acc ctx).data = _
    rw [hacc ctx hctx]
    simp [GOrTail.chars]
  | .cons a t, acc, sacc => fun hacc ctx hctx => by
    have hacc2 : ∀ ctx2, ctx2 ≤ 1 →
        (ExpressionVariant.renderP (.orE acc (GAnd.toExpr a)) ctx2).data =
          sacc ++ (' ' :: 'O' :: 'R' :: ' ' :: GAnd.chars a) := by
      intro ctx2 hctx2
      simp only [ExpressionVariant.renderP]
      rw [if_neg (by omega)]
      simp only [String.data_append]
      rw [hacc 1 (by omega), renderSpecAnd a 2 (by omega)]
      simp
    show (ExpressionVariant.renderP (GOrTail.fold (.orE acc (GAnd.toExpr a)) t) ctx).data = _
    rw [renderSpecOrTail t _ _ hacc2 ctx hctx]
    simp [GOrTail.chars, List.append_assoc]

theorem renderSpecOr : ∀ (g : GOr) (ctx : Nat), ctx ≤ 1 →
    (ExpressionVariant.renderP (GOr.toExpr g) ctx).data = GOr.chars g
  | .mk a t, ctx => fun hctx => by
    show (ExpressionVariant.renderP (GOrTail.fold (GAnd.toExpr a) t) ctx).data = _
    rw [renderSpecOrTail t (GAnd.toExpr a) (GAnd.chars a)
      (fun ctx2 h2 => renderSpecAnd a ctx2 (by omega)) ctx hctx]
    simp [GOr.chars]

end

mutual

theorem fsizeLeOr : ∀ g : GOr, GOr.fsize g ≤ 3 * (GOr.toks g).length
  | .mk a t => by
    have h1 := fsizeLeAnd a
    have h2 := fsizeLeOrTail t
    simp only [GOr.fsize, GOr.toks, List.length_append]
    omega

theorem fsizeLeOrTail : ∀ t : GOrTail, GOrTail.fsize t ≤ 3 * (GOrTail.toks t).length
  | .nil => by simp [GOrTail.fsize, GOrTail.toks]
  | .cons a t => by
    have h1 := fsizeLeAnd a
    have h2 := fsizeLeOrTail t
    simp only [GOrTail.fsize, GOrTail.toks, List.length_cons, List.length_append]
    omega

theorem fsizeLeAnd : ∀ g : GAnd, GAnd.fsize g + 1 ≤ 3 * (GAnd.toks g).length
  | .mk w t => by
    have h1 := fsizeLeWith w
    have h2 := fsizeLeAndTail t
    simp only [GAnd.fsize, GAnd.toks, List.length_append]
    omega

theorem fsizeLeAndTail : ∀ t : GAndTail, GAndTail.fsize t ≤ 3 * (GAndTail.toks t).length
  | .nil => by simp [GAndTail.fsize, GAndTail.toks]
  | .cons w t => by
    have h1 := fsizeLeWith w
    have h2 := fsizeLeAndTail t
    simp only [GAndTail.fsize, GAndTail.toks, List.length_cons, List.length_append]
    omega

theorem fsizeLeWith : ∀ g : GWith, GWith.fsize g + 2 ≤ 3 * (GWith.toks g).length
  | .atom a => by
    have h1 := fsizeLeAtom a
    simp only [GWith.fsize, GWith.toks]
    omega
  | .withx a x => by
    have h1 := fsizeLeAtom a
    simp only [GWith.fsize, GWith.toks, List.length_append, List.length_cons,
      List.length_nil]
    omega

theorem fsizeLeAtom : ∀ g : GAtom, GAtom.fsize g + 3 ≤ 3 * (GAtom.toks g).length
  | .group e => by
    have h1 := fsizeLeOr e
    simp only [GAtom.fsize, GAtom.toks, List.length_cons, List.length_append,
      List.length_nil]
    omega
  | .lic w => by simp [GAtom.fsize, GAtom.toks]
  | .noneT => by simp [GAtom.fsize, GAtom.toks]
  | .noassertT => by simp [GAtom.fsize, GAtom.toks]

end

mutual

theorem parseSpecAtom : ∀ (g : GAtom) (rest : List Token) (fuel : Nat),
    GAtom.wf g = true → GAtom.fsize g + 1 ≤ fuel →
    parseF fuel .mAtom (GAtom.toks g ++ rest) = some (GAtom.toExpr g, rest)
  | .group e, rest, fuel => fun hwf hfuel => by
    obtain ⟨f, rfl⟩ : ∃ f, fuel = f + 1 := ⟨fuel - 1, by omega⟩
    show parseF (f + 1) .mAtom (Token.lparen :: ((GOr.toks e ++ [Token.rparen]) ++ rest)) = _
    simp only [parseF]
    rw [List.append_assoc]
    simp only [List.singleton_append]
    rw [parseSpecOr e (Token.rparen :: rest) f hwf
      (by simp only [GAtom.fsize] at hfuel; omega)
      (by simp) (by simp) (by simp)]
    rfl
  | .lic w, rest, fuel => fun hwf hfuel => by
    obtain ⟨f, rfl⟩ : ∃ f, fuel = f + 1 := ⟨fuel - 1, by omega⟩
    have hwf' : okLicId w = true := hwf
    obtain ⟨hv, hne⟩ := (Bool.and_eq_true _ _).mp hwf'
    have h5 : ¬(w = "NONE") ∧ ¬(w = "NOASSERTION") ∧ ¬(w = "AND") ∧ ¬(w = "OR") ∧
        ¬(w = "WITH") := by
      simp only [Bool.not_eq_true', Bool.or_eq_false_iff, decide_eq_false_iff_not] at hne
      tauto
    show parseF (f + 1) .mAtom (Token.ident w :: rest) = _
    simp only [parseF]
    rw [if_neg h5.1, if_neg h5.2.1, if_pos hv]
    rfl
  | .noneT, rest, fuel => fun _ hfuel => by
    obtain ⟨f, rfl⟩ : ∃ f, fuel = f + 1 := ⟨fuel - 1, by omega⟩
    show parseF (f + 1) .mAtom (Token.ident "NONE" :: rest) = _
    simp [parseF]
    rfl
  | .noassertT, rest, fuel => fun _ hfuel => by
    obtain ⟨f, rfl⟩ : ∃ f, fuel = f + 1 := ⟨fuel - 1, by omega⟩
    show parseF (f + 1) .mAtom (Token.ident "NOASSERTION" :: rest) = _
    simp [parseF]
    rfl

theorem parseSpecWith : ∀ (g : GWith) (rest : List Token) (fuel : Nat),
    GWith.wf g = true → GWith.fsize g + 1 ≤ fuel →
    rest.head? ≠ some Token.opWith →
    parseF fuel .mWith (GWith.toks g ++ rest) = some (GWith.toExpr g, rest)
  | .atom a, rest, fuel => fun hwf hfuel hw => by
    obtain ⟨f, rfl⟩ : ∃ f, fuel = f + 1 := ⟨fuel - 1, by omega⟩
    simp only [parseF]
    rw [GWith.toks, parseSpecAtom a rest f hwf
      (by simp only [GWith.fsize] at hfuel; omega)]
    cases rest with
    | nil => rfl
    | cons tk rest' =>
      cases tk with
      | opWith => exact absurd rfl hw
      | lparen => rfl
      | rparen => rfl
      | opAnd => rfl
      | opOr => rfl
      | ident w => rfl
  | .withx a x, rest, fuel => fun hwf hfuel hw => by
    obtain ⟨f, rfl⟩ : ∃ f, fuel = f + 1 := ⟨fuel - 1, by omega⟩
    obtain ⟨hwa, hxok⟩ := (Bool.and_eq_true _ _).mp hwf
    obtain ⟨hxv, _⟩ := (Bool.and_eq_true _ _).mp hxok
    simp only [parseF]
    rw [show GWith.toks (.withx a x) ++ rest =
      GAtom.toks a ++ (Token.opWith :: Token.ident x :: rest) by
        simp [GWith.toks]]
    rw [parseSpecAtom a _ f hwa (by simp only [GWith.fsize] at hfuel; omega)]
    simp only [if_pos hxv]
    rfl

theorem parseSpecAndTail : ∀ (t : GAndTail) (acc : ExpressionVariant) (rest : List Token)
    (fuel : Nat), GAndTail.wf t = true → GAndTail.fsize t + 1 ≤ fuel →
    rest.head? ≠ some Token.opAnd → rest.head? ≠ some Token.opWith →
    parseF fuel (.mAndLoop acc) (GAndTail.toks t ++ rest) = some (GAndTail.fold acc t, rest)
  | .nil, acc, rest, fuel => fun _ hfuel hA hW => by
    obtain ⟨f, rfl⟩ : ∃ f, fuel = f + 1 := ⟨fuel - 1, by omega⟩
    show parseF (f + 1) (.mAndLoop acc) ([] ++ rest) = some (acc, rest)
    rw [List.nil_append]
    simp only [parseF]
    cases rest with
    | nil => rfl
    | cons tk rest' =>
      cases tk with
      | opAnd => exact absurd rfl hA
      | lparen => rfl
      | rparen => rfl
      | opWith => rfl
      | opOr => rfl
      | ident w => rfl
  | .cons w t, acc, rest, fuel => fun hwf hfuel hA hW => by
    obtain ⟨f, rfl⟩ : ∃ f, fuel = f + 1 := ⟨fuel - 1, by omega⟩
    obtain ⟨hww, hwt⟩ := (Bool.and_eq_true _ _).mp hwf
    show parseF (f + 1) (.mAndLoop acc)
      (Token.opAnd :: ((GWith.toks w ++ GAndTail.toks t) ++ rest)) = _
    simp only [parseF]
    rw [List.append_assoc]
    have hws : (GAndTail.toks t ++ rest).head? ≠ some Token.opWith := by
      cases t with
      | nil => simpa [GAndTail.toks] using hW
      | cons w' t' => simp [GAndTail.toks]
    rw [parseSpecWith w _ f hww (by simp only [GAndTail.fsize] at hfuel; omega) hws]
    show parseF f (PMode.mAndLoop (.andE acc (GWith.toExpr w))) (GAndTail.toks t ++ rest) = _
    rw [parseSpecAndTail t (.andE acc (GWith.toExpr w)) rest f hwt
      (by simp only [GAndTail.fsize] at hfuel; omega) hA hW]
    rfl

theorem parseSpecAnd : ∀ (g : GAnd) (rest : List Token) (fuel : Nat),
    GAnd.wf g = true → GAnd.fsize g + 1 ≤ fuel →
    rest.head? ≠ some Token.opAnd → rest.head? ≠ some Token.opWith →
    parseF fuel .mAnd (GAnd.toks g ++ rest) = some (GAnd.toExpr g, rest)
  | .mk w t, rest, fuel => fun hwf hfuel hA hW => by
    obtain ⟨f, rfl⟩ : ∃ f, fuel = f + 1 := ⟨fuel - 1, by omega⟩
    obtain ⟨hww, hwt⟩ := (Bool.and_eq_true _ _).mp hwf
    show parseF (f + 1) .mAnd ((GWith.toks w ++ GAndTail.toks t) ++ rest) = _
    simp only [parseF]
    rw [List.append_assoc]
    have hws : (GAndTail.toks t ++ rest).head? ≠ some Token.opWith := by
      cases t with
      | nil => simpa [GAndTail.toks] using hW
      | cons w' t' => simp [GAndTail.toks]
    rw [parseSpecWith w _ f hww (by simp only [GAnd.fsize] at hfuel; omega) hws]
    show parseF f (PMode.mAndLoop (GWith.toExpr w)) (GAndTail.toks t ++ rest) = _
    rw [parseSpecAndTail t (GWith.toExpr w) rest f hwt
      (by simp only [GAnd.fsize] at hfuel; omega) hA hW]
    rfl

theorem parseSpecOrTail : ∀ (t : GOrTail) (acc : ExpressionVariant) (rest : List Token)
    (fuel : Nat), GOrTail.wf t = true → GOrTail.fsize t + 1 ≤ fuel →
    rest.head? ≠ some Token.opOr → rest.head? ≠ some Token.opAnd →
    rest.head? ≠ some Token.opWith →
    parseF fuel (.mOrLoop acc) (GOrTail.toks t ++ rest) = some (GOrTail.fold acc t, rest)
  | .nil, acc, rest, fuel => fun _ hfuel hO hA hW => by
    obtain ⟨f, rfl⟩ : ∃ f, fuel = f + 1 := ⟨fuel - 1, by omega⟩
    show parseF (f + 1) (.mOrLoop acc) ([] ++ rest) = some (acc, rest)
    rw [List.nil_append]
    simp only [parseF]
    cases rest with
    | nil => rfl
    | cons tk rest' =>
      cases tk with
      | opOr => exact absurd rfl hO
      | lparen => rfl
      | rparen => rfl
      | opWith => rfl
      | opAnd => rfl
      | ident w => rfl
  | .cons a t, acc, rest, fuel => fun hwf hfuel hO hA hW => by
    obtain ⟨f, rfl⟩ : ∃ f, fuel = f + 1 := ⟨fuel - 1, by omega⟩
    obtain ⟨hwa, hwt⟩ := (Bool.and_eq_true _ _).mp hwf
    show parseF (f + 1) (.mOrLoop acc)
      (Token.opOr :: ((GAnd.toks a ++ GOrTail.toks t) ++ rest)) = _
    simp only [parseF]
    rw [List.append_assoc]
    have hconds : (GOrTail.toks t ++ rest).head? ≠ some Token.opAnd ∧
        (GOrTail.toks t ++ rest).head? ≠ some Token.opWith := by
      cases t with
      | nil =>
        constructor
        · simpa [GOrTail.toks] using hA
        · simpa [GOrTail.toks] using hW
      | cons a' t' => simp [GOrTail.toks]
    rw [parseSpecAnd a _ f hwa (by simp only [GOrTail.fsize] at hfuel; omega)
      hconds.1 hconds.2]
    show parseF f (PMode.mOrLoop (.orE acc (GAnd.toExpr a))) (GOrTail.toks t ++ rest) = _
    rw [parseSpecOrTail t (.orE acc (GAnd.toExpr a)) rest f hwt
      (by simp only [GOrTail.fsize] at hfuel; omega) hO hA hW]
    rfl

theorem parseSpecOr : ∀ (g : GOr) (rest : List Token) (fuel : Nat),
    GOr.wf g = true → GOr.fsize g + 1 ≤ fuel →
    rest.head? ≠ some Token.opOr → rest.head? ≠ some Token.opAnd →
    rest.head? ≠ some Token.opWith →
    parseF fuel .mOr (GOr.toks g ++ rest) = some (GOr.toExpr g, rest)
  | .mk a t, rest, fuel => fun hwf hfuel hO hA hW => by
    obtain ⟨f, rfl⟩ : ∃ f, fuel = f + 1 := ⟨fuel - 1, by omega⟩
    obtain ⟨hwa, hwt⟩ := (Bool.and_eq_true _ _).mp hwf
    show parseF (f + 1) .mOr ((GAnd.toks a ++ GOrTail.toks t) ++ rest) = _
    simp only [parseF]
    rw [List.append_assoc]
    have hconds : (GOrTail.toks t ++ rest).head? ≠ some Token.opAnd ∧
        (GOrTail.toks t ++ rest).head? ≠ some Token.opWith := by
      cases t with
      | nil =>
        constructor
        · simpa [GOrTail.toks] using hA
        · simpa [GOrTail.toks] using hW
      | cons a' t' => simp [GOrTail.toks]
    rw [parseSpecAnd a _ f hwa (by simp only [GOr.fsize] at hfuel; omega)
      hconds.1 hconds.2]
    show parseF f (PMode.mOrLoop (GAnd.toExpr a)) (GOrTail.toks t ++ rest) = _
    rw [parseSpecOrTail t (GAnd.toExpr a) rest f hwt
      (by simp only [GOr.fsize] at hfuel; omega) hO hA hW]
    rfl

end

/-- Round trip at the inner level: parsing the canonical rendering of a
well-formed derivation's tree returns exactly that tree. -/
theorem parse_render_roundtrip (g : GOr) (hwf : GOr.wf g = true) :
    ExpressionVariant.parse (ExpressionVariant.renderP (GOr.toExpr g) 1) =
      .ok (GOr.toExpr g) := by
  have htok : tokenize (ExpressionVariant.renderP (GOr.toExpr g) 1) = GOr.toks g := by
    unfold tokenize
    rw [renderSpecOr g 1 (le_refl 1)]
    have h := tokSpecOr g [] hwf trivial
    simpa [tokGo, flushTok] using h
  have hp := parseSpecOr g [] (3 * (GOr.toks g).length + 1) hwf
    (by have := fsizeLeOr g; omega) (by simp) (by simp) (by simp)
  rw [List.append_nil] at hp
  unfold ExpressionVariant.parse
  rw [htok]
  simp only [hp]

/-- C3: every syntactically valid expression string in canonical spacing parses
successfully, and rendering the parsed expression back to text yields exactly
the input string: `render(parse(s)) == s`. -/
theorem c3_roundtrip_canonical (s : String) (h : CanonicalValid s) :
    ∃ ex, SpdxExpression.parse s = .ok ex ∧ toString ex = s := by
  obtain ⟨g, hwf, hs⟩ := h
  refine ⟨⟨GOr.toExpr g⟩, ?_, hs⟩
  subst hs
  unfold SpdxExpression.parse
  rw [show toString (SpdxExpression.mk (GOr.toExpr g)) =
    ExpressionVariant.renderP (GOr.toExpr g) 1 from rfl]
  rw [parse_render_roundtrip g hwf]

/-- C3 witness: the canonical string `"MIT AND (Apache-2.0 OR ISC)"` (from the
library's own test) satisfies the round-trip property. -/
theorem c3_roundtrip_canonical_witness :
    CanonicalValid "MIT AND (Apache-2.0 OR ISC)" ∧
    ∃ ex, SpdxExpression.parse "MIT AND (Apache-2.0 OR ISC)" = .ok ex ∧
      toString ex = "MIT AND (Apache-2.0 OR ISC)" := by
  have hc : CanonicalValid "MIT AND (Apache-2.0 OR ISC)" :=
    ⟨GOr.mk (GAnd.mk (GWith.atom (GAtom.lic "MIT"))
        (GAndTail.cons (GWith.atom (GAtom.group
          (GOr.mk (GAnd.mk (GWith.atom (GAtom.lic "Apache-2.0")) GAndTail.nil)
            (GOrTail.cons (GAnd.mk (GWith.atom (GAtom.lic "ISC")) GAndTail.nil)
              GOrTail.nil)))) GAndTail.nil)) GOrTail.nil,
      by decide, rfl⟩
  exact ⟨hc, c3_roundtrip_canonical _ hc⟩

theorem ws_not_idChar {c : Char} (h : isAsciiWs c = true) : idChar c = false := by
  have hc : c = ' ' ∨ c = '\t' ∨ c = '\n' ∨ c = '\x0c' ∨ c = '\r' := by
    simp only [isAsciiWs, Bool.or_eq_true, decide_eq_true_eq] at h
    tauto
  rcases hc with rfl | rfl | rfl | rfl | rfl <;> decide

theorem idChar_ne_lparen {c : Char} (h : idChar c = true) : c ≠ '(' := by
  rintro rfl
  revert h
  decide

theorem idChar_ne_rparen {c : Char} (h : idChar c = true) : c ≠ ')' := by
  rintro rfl
  revert h
  decide

theorem idChar_not_ws {c : Char} (h : idChar c = true) : isAsciiWs c = false := by
  cases hw : isAsciiWs c with
  | false => rfl
  | true =>
    rw [ws_not_idChar hw] at h
    simp at h

theorem okPair_of_not {a b : Char} (ha : ¬(a = '(')) (hb : ¬(b = ')')) : okPair a b :=
  ⟨fun h => absurd h ha, fun h => absurd h hb⟩

theorem chain'_okPair_of_id : ∀ l : List Char, (∀ c ∈ l, idChar c = true) →
    List.Chain' okPair l
  | [] => fun _ => List.chain'_nil
  | [a] => fun _ => List.chain'_singleton a
  | a :: b :: t => fun h => by
    rw [List.chain'_cons]
    refine ⟨okPair_of_not (idChar_ne_lparen (h a (by simp)))
      (idChar_ne_rparen (h b (by simp))), ?_⟩
    exact chain'_okPair_of_id (b :: t) (fun c hc => h c (List.mem_cons_of_mem a hc))

theorem RProps_word (w : List Char) (hne : w ≠ []) (hid : ∀ c ∈ w, idChar c = true) :
    RProps w := by
  refine ⟨hne, fun c hc => Or.inl (hid c hc), chain'_okPair_of_id w hid, ?_, ?_⟩
  · intro c hc
    cases w with
    | nil => exact absurd rfl hne
    | cons a l =>
      simp only [List.head?_cons, Option.mem_def, Option.some.injEq] at hc
      subst hc
      exact Or.inr (hid a (by simp))
  · intro c hc
    have hm : c ∈ w := by
      obtain ⟨h1, h2⟩ := List.mem_getLast?_eq_getLast hc
      rw [h2]
      exact List.getLast_mem h1
    exact Or.inr (hid c hm)

theorem parens_run_empty : ∀ l : List Char, List.Chain' okPair l →
    (∀ c ∈ l, c = '(' ∨ c = ')') →
    (∀ c ∈ l.head?, ¬(c = ')')) →
    (∀ c ∈ l.getLast?, ¬(c = '(')) → l = []
  | [] => fun _ _ _ _ => rfl
  | c :: l' => fun hch hp hh hl => by
    have hc : c = '(' := by
      rcases hp c (by simp) with h | h
      · exact h
      · exact absurd h (hh c (by simp))
    subst hc
    cases l' with
    | nil => exact absurd rfl (hl '(' (by simp))
    | cons c2 l'' =>
      have hpair := (List.chain'_cons.mp hch).1
      have hc2 : c2 = '(' := by
        rcases hpair.1 rfl with h | h
        · exact h
        · rcases hp c2 (by simp) with h2 | h2
          · exact h2
          · rw [h2] at h
            exact absurd h (by decide)
      have hrec := parens_run_empty (c2 :: l'') (List.chain'_cons.mp hch).2
        (fun d hd => hp d (List.mem_cons_of_mem _ hd))
        (by
          intro d hd
          simp only [List.head?_cons, Option.mem_def, Option.some.injEq] at hd
          subst hd
          rw [hc2]
          decide)
        (fun d hd => hl d (List.mem_getLast?_cons hd))
      exact absurd hrec (by simp)

theorem RProps_of_validId (w : String) (hv : validId w = true) : RProps w.data := by
  obtain ⟨hne, hall⟩ := (Bool.and_eq_true _ _).mp hv
  refine RProps_word w.data ?_ (fun c hc => List.all_eq_true.mp hall c hc)
  simp only [Bool.not_eq_true'] at hne
  simpa [List.isEmpty_iff] using hne

theorem RProps_sep (X Y w : List Char) (hX : RProps X) (hY : RProps Y)
    (hwne : w ≠ []) (hw : ∀ c ∈ w, idChar c = true) :
    RProps (X ++ (' ' :: (w ++ (' ' :: Y)))) := by
  obtain ⟨hXne, hXok, hXch, hXh, hXl⟩ := hX
  obtain ⟨hYne, hYok, hYch, hYh, hYl⟩ := hY
  have hYchain : List.Chain' okPair (' ' :: Y) := by
    rw [List.chain'_cons']
    refine ⟨?_, hYch⟩
    intro y hy
    refine okPair_of_not (by decide) ?_
    rcases hYh y hy with h | h
    · rw [h]
      decide
    · exact idChar_ne_rparen h
  have hwY : List.Chain' okPair (w ++ (' ' :: Y)) := by
    rw [List.chain'_append]
    refine ⟨chain'_okPair_of_id w hw, hYchain, ?_⟩
    intro x hx y hy
    simp only [List.head?_cons, Option.mem_def, Option.some.injEq] at hy
    subst hy
    have hxm : x ∈ w := by
      obtain ⟨h1, h2⟩ := List.mem_getLast?_eq_getLast hx
      rw [h2]
      exact List.getLast_mem h1
    exact okPair_of_not (idChar_ne_lparen (hw x hxm)) (by decide)
  have hM : List.Chain' okPair (' ' :: (w ++ (' ' :: Y))) := by
    rw [List.chain'_cons']
    refine ⟨?_, hwY⟩
    intro y hy
    rw [List.head?_append_of_ne_nil _ hwne] at hy
    have hym : y ∈ w := by
      cases w with
      | nil => exact absurd rfl hwne
      | cons a l =>
        simp only [List.head?_cons, Option.mem_def, Option.some.injEq] at hy
        subst hy
        simp
    exact okPair_of_not (by decide) (idChar_ne_rparen (hw y hym))
  refine ⟨fun h => hXne (List.append_eq_nil.mp h).1, ?_, ?_, ?_, ?_⟩
  · intro c hc
    rcases List.mem_append.mp hc with h | h
    · exact hXok c h
    · rcases List.mem_cons.mp h with rfl | h
      · exact Or.inr (Or.inr (Or.inr rfl))
      · rcases List.mem_append.mp h with h | h
        · exact Or.inl (hw c h)
        · rcases List.mem_cons.mp h with rfl | h
          · exact Or.inr (Or.inr (Or.inr rfl))
          · exact hYok c h
  · rw [List.chain'_append]
    refine ⟨hXch, hM, ?_⟩
    intro x hx y hy
    simp only [List.head?_cons, Option.mem_def, Option.some.injEq] at hy
    subst hy
    refine okPair_of_not ?_ (by decide)
    rcases hXl x hx with h | h
    · rw [h]
      decide
    · exact idChar_ne_lparen h
  · rw [List.head?_append_of_ne_nil _ hXne]
    exact hXh
  · rw [List.getLast?_append_of_ne_nil _ (by simp)]
    rw [show (' ' :: (w ++ (' ' :: Y))) = [' '] ++ (w ++ (' ' :: Y)) from rfl,
      List.getLast?_append_of_ne_nil _ (by simp [hwne]),
      List.getLast?_append_of_ne_nil _ (by simp),
      show (' ' :: Y) = [' '] ++ Y from rfl,
      List.getLast?_append_of_ne_nil _ hYne]
    exact hYl

theorem RProps_wrap (d : List Char) (h : RProps d) : RProps ('(' :: (d ++ [')'])) := by
  obtain ⟨hne, hok, hch, hh, hl⟩ := h
  refine ⟨by simp, ?_, ?_, ?_, ?_⟩
  · intro c hc
    rcases List.mem_cons.mp hc with rfl | hc
    · exact Or.inr (Or.inl rfl)
    · rcases List.mem_append.mp hc with hc | hc
      · exact hok c hc
      · rcases List.mem_cons.mp hc with rfl | hc
        · exact Or.inr (Or.inr (Or.inl rfl))
        · simp at hc
  · rw [List.chain'_cons']
    constructor
    · intro y hy
      rw [List.head?_append_of_ne_nil _ hne] at hy
      constructor
      · intro _
        exact hh y hy
      · intro hy'
        rcases hh y hy with h | h
        · rw [hy'] at h
          exact absurd h (by decide)
        · rw [hy'] at h
          exact absurd h (by decide)
    · rw [List.chain'_append]
      refine ⟨hch, List.chain'_singleton _, ?_⟩
      intro x hx y hy
      simp only [List.head?_cons, Option.mem_def, Option.some.injEq] at hy
      subst hy
      constructor
      · intro hx'
        rcases hl x hx with h | h
        · rw [hx'] at h
          exact absurd h (by decide)
        · rw [hx'] at h
          exact absurd h (by decide)
      · intro _
        exact hl x hx
  · intro c hc
    simp only [List.head?_cons, Option.mem_def, Option.some.injEq] at hc
    subst hc
    exact Or.inl rfl
  · intro c hc
    rw [show ('(' :: (d ++ [')'])) = ('(' :: d) ++ [')'] by simp] at hc
    rw [List.getLast?_append_of_ne_nil _ (by simp)] at hc
    simp only [List.getLast?_singleton, Option.mem_def, Option.some.injEq] at hc
    subst hc
    exact Or.inl rfl

theorem renderP_goodProps : ∀ (e : ExpressionVariant), goodIds e = true → ∀ ctx : Nat,
    RProps ((ExpressionVariant.renderP e ctx).data)
  | .noneE => fun _ _ => RProps_word "NONE".data (by decide) (by decide)
  | .noAssertion => fun _ _ => RProps_word "NOASSERTION".data (by decide) (by decide)
  | .simple w => fun hg _ => RProps_of_validId w hg
  | .paren e => fun hg ctx => by
    have ih := renderP_goodProps e hg 1
    have h := RProps_wrap _ ih
    show RProps ((("(" : String) ++ ExpressionVariant.renderP e 1 ++ ")").data)
    simpa [String.data_append] using h
  | .orE l r => fun hg ctx => by
    obtain ⟨hgl, hgr⟩ := (Bool.and_eq_true _ _).mp hg
    have ihl := renderP_goodProps l hgl 1
    have ihr := renderP_goodProps r hgr 2
    have hsep := RProps_sep _ _ ['O', 'R'] ihl ihr (by simp) (by decide)
    simp only [ExpressionVariant.renderP]
    by_cases hc : 1 < ctx
    · rw [if_pos hc]
      have h := RProps_wrap _ hsep
      simpa [String.data_append, List.append_assoc,
        show (" OR " : String).data = [' ', 'O', 'R', ' '] from rfl] using h
    · rw [if_neg hc]
      simpa [String.data_append, List.append_assoc,
        show (" OR " : String).data = [' ', 'O', 'R', ' '] from rfl] using hsep
  | .andE l r => fun hg ctx => by
    obtain ⟨hgl, hgr⟩ := (Bool.and_eq_true _ _).mp hg
    have ihl := renderP_goodProps l hgl 2
    have ihr := renderP_goodProps r hgr 3
    have hsep := RProps_sep _ _ ['A', 'N', 'D'] ihl ihr (by simp) (by decide)
    simp only [ExpressionVariant.renderP]
    by_cases hc : 2 < ctx
    · rw [if_pos hc]
      have h := RProps_wrap _ hsep
      simpa [String.data_append, List.append_assoc,
        show (" AND " : String).data = [' ', 'A', 'N', 'D', ' '] from rfl] using h
    · rw [if_neg hc]
      simpa [String.data_append, List.append_assoc,
        show (" AND " : String).data = [' ', 'A', 'N', 'D', ' '] from rfl] using hsep
  | .withE l x => fun hg ctx => by
    obtain ⟨hgl, hgx⟩ := (Bool.and_eq_true _ _).mp hg
    have ihl := renderP_goodProps l hgl 4
    have ihx := RProps_of_validId x hgx
    have hsep := RProps_sep _ _ ['W', 'I', 'T', 'H'] ihl ihx (by simp) (by decide)
    simp only [ExpressionVariant.renderP]
    by_cases hc : 3 < ctx
    · rw [if_pos hc]
      have h := RProps_wrap _ hsep
      simpa [String.data_append, List.append_assoc,
        show (" WITH " : String).data = [' ', 'W', 'I', 'T', 'H', ' '] from rfl] using h
    · rw [if_neg hc]
      simpa [String.data_append, List.append_assoc,
        show (" WITH " : String).data = [' ', 'W', 'I', 'T', 'H', ' '] from rfl] using hsep

theorem splitWsGo_tokens_clean : ∀ (cs acc : List Char),
    (∀ c ∈ acc, isAsciiWs c = false) →
    ∀ t ∈ splitWsGo acc cs, t.data ≠ [] ∧ ∀ c ∈ t.data, isAsciiWs c = false
  | [], acc => fun hacc t ht => by
    cases acc with
    | nil => simp [splitWsGo] at ht
    | cons a l =>
      simp only [splitWsGo, List.mem_singleton] at ht
      subst ht
      exact ⟨List.cons_ne_nil a l, hacc⟩
  | c :: cs', acc => fun hacc t ht => by
    by_cases hws : isAsciiWs c = true
    · cases acc with
      | nil =>
        rw [show splitWsGo [] (c :: cs') = splitWsGo [] cs' by
          simp [splitWsGo, hws]] at ht
        exact splitWsGo_tokens_clean cs' [] (by simp) t ht
      | cons a l =>
        rw [show splitWsGo (a :: l) (c :: cs') =
            String.mk (a :: l) :: splitWsGo [] cs' by
          simp [splitWsGo, hws]] at ht
        rcases List.mem_cons.mp ht with rfl | ht
        · exact ⟨List.cons_ne_nil a l, hacc⟩
        · exact splitWsGo_tokens_clean cs' [] (by simp) t ht
    · have hws' : isAsciiWs c = false := by
        cases h : isAsciiWs c
        · rfl
        · exact absurd h hws
      rw [show splitWsGo acc (c :: cs') = splitWsGo (acc ++ [c]) cs' by
        simp [splitWsGo, hws']] at ht
      refine splitWsGo_tokens_clean cs' (acc ++ [c]) ?_ t ht
      intro d hd
      rcases List.mem_append.mp hd with h | h
      · exact hacc d h
      · simp only [List.mem_singleton] at h
        subst h
        exact hws'

theorem token_hasId_of_ctx (acc : List Char) (hne : acc ≠ [])
    (hnws : ∀ c ∈ acc, isAsciiWs c = false)
    (hok : ∀ c ∈ acc, cOk c)
    (hch : List.Chain' okPair acc)
    (hh : ∀ c ∈ acc.head?, ¬(c = ')'))
    (hl : ∀ c ∈ acc.getLast?, ¬(c = '(')) :
    ∃ c ∈ acc, idChar c = true := by
  by_contra hno
  push_neg at hno
  have hpar : ∀ c ∈ acc, c = '(' ∨ c = ')' := by
    intro c hc
    rcases hok c hc with h | h | h | h
    · exact absurd h (hno c hc)
    · exact Or.inl h
    · exact Or.inr h
    · exfalso
      have hws := hnws c hc
      rw [h] at hws
      exact absurd hws (by decide)
  exact absurd (parens_run_empty acc hch hpar hh hl) hne

theorem splitWsGo_hasId : ∀ (cs acc : List Char),
    (∀ c ∈ acc, isAsciiWs c = false) →
    (∀ c ∈ acc ++ cs, cOk c) →
    List.Chain' okPair (acc ++ cs) →
    (∀ c ∈ (acc ++ cs).head?, ¬(c = ')')) →
    (∀ c ∈ (acc ++ cs).getLast?, ¬(c = '(')) →
    ∀ t ∈ splitWsGo acc cs, ∃ c ∈ t.data, idChar c = true
  | [], acc => fun hnws hok hch hh hl t ht => by
    cases acc with
    | nil => simp [splitWsGo] at ht
    | cons a l =>
      simp only [splitWsGo, List.mem_singleton] at ht
      subst ht
      rw [List.append_nil] at hok hch hh hl
      exact token_hasId_of_ctx (a :: l) (List.cons_ne_nil a l) hnws hok hch hh hl
  | c :: cs', acc => fun hnws hok hch hh hl t ht => by
    by_cases hws : isAsciiWs c = true
    · -- the pending word (if any) is emitted and we continue on the suffix
      have hcne : ¬(c = ')') := by
        rintro rfl
        exact absurd hws (by decide)
      have hcne2 : ¬(c = '(') := by
        rintro rfl
        exact absurd hws (by decide)
      have hsplit : acc ++ (c :: cs') = (acc ++ [c]) ++ cs' := by simp
      have hchd : List.Chain' okPair ((acc ++ [c]) ++ cs') := by rwa [hsplit] at hch
      obtain ⟨hch1, hch2, hjun⟩ := List.chain'_append.mp hchd
      have hh' : ∀ d ∈ cs'.head?, ¬(d = ')') := by
        intro d hd
        have hop : okPair c d := by
          refine hjun c ?_ d hd
          rw [List.getLast?_append_of_ne_nil _ (by simp)]
          simp
        intro hd'
        rcases hop.2 hd' with h | h
        · exact hcne h
        · have := ws_not_idChar hws
          rw [this] at h
          simp at h
      have hl' : ∀ d ∈ cs'.getLast?, ¬(d = '(') := by
        intro d hd
        refine hl d ?_
        have hcs'ne : cs' ≠ [] := by
          intro h0
          rw [h0] at hd
          simp at hd
        rw [show acc ++ (c :: cs') = (acc ++ [c]) ++ cs' by simp,
          List.getLast?_append_of_ne_nil _ hcs'ne]
        exact hd
      have hok' : ∀ d ∈ cs', cOk d := by
        intro d hd
        exact hok d (by simp [hd])
      cases acc with
      | nil =>
        rw [show splitWsGo [] (c :: cs') = splitWsGo [] cs' by
          simp [splitWsGo, hws]] at ht
        refine splitWsGo_hasId cs' [] (by simp) (by simpa using hok') ?_ ?_ ?_ t ht
        · simpa using hch2
        · simpa using hh'
        · simpa using hl'
      | cons a l =>
        rw [show splitWsGo (a :: l) (c :: cs') =
            String.mk (a :: l) :: splitWsGo [] cs' by
          simp [splitWsGo, hws]] at ht
        rcases List.mem_cons.mp ht with rfl | ht
        · -- the emitted token is the pending word `a :: l`
          refine token_hasId_of_ctx (a :: l) (List.cons_ne_nil a l) hnws
            (fun d hd => hok d (List.mem_append.mpr (Or.inl hd))) ?_ ?_ ?_
          · have := List.chain'_append.mp
              (show List.Chain' okPair ((a :: l) ++ (c :: cs')) from hch)
            exact this.1
          · intro d hd
            refine hh d ?_
            rw [List.head?_append_of_ne_nil _ (List.cons_ne_nil a l)]
            exact hd
          · intro d hd hd'
            have := List.chain'_append.mp
              (show List.Chain' okPair ((a :: l) ++ (c :: cs')) from hch)
            have hop : okPair d c := by
              refine this.2.2 d hd c ?_
              simp
            rcases hop.1 hd' with h | h
            · exact hcne2 h
            · have hni := ws_not_idChar hws
              rw [hni] at h
              simp at h
        · refine splitWsGo_hasId cs' [] (by simp) (by simpa using hok') ?_ ?_ ?_ t ht
          · simpa using hch2
          · simpa using hh'
          · simpa using hl'
    · have hws' : isAsciiWs c = false := by
        cases h : isAsciiWs c
        · rfl
        · exact absurd h hws
      rw [show splitWsGo acc (c :: cs') = splitWsGo (acc ++ [c]) cs' by
        simp [splitWsGo, hws']] at ht
      have hnws' : ∀ d ∈ acc ++ [c], isAsciiWs d = false := by
        intro d hd
        rcases List.mem_append.mp hd with h | h
        · exact hnws d h
        · simp only [List.mem_singleton] at h
          subst h
          exact hws'
      refine splitWsGo_hasId cs' (acc ++ [c]) hnws' ?_ ?_ ?_ ?_ t ht
      · intro d hd
        refine hok d ?_
        simpa [List.append_assoc] using hd
      · have : acc ++ (c :: cs') = (acc ++ [c]) ++ cs' := by simp
        rwa [this] at hch
      · intro d hd
        refine hh d ?_
        rwa [show acc ++ (c :: cs') = (acc ++ [c]) ++ cs' by simp]
      · intro d hd
        refine hl d ?_
        rwa [show acc ++ (c :: cs') = (acc ++ [c]) ++ cs' by simp]

theorem parseF_goodIds : ∀ (fuel : Nat) (mode : PMode) (toks rest : List Token)
    (e : ExpressionVariant), parseF fuel mode toks = some (e, rest) →
    modeGood mode = true → goodIds e = true := by
  intro fuel
  induction fuel with
  | zero =>
    intro mode toks rest e hp _
    simp [parseF] at hp
  | succ f ih =>
    intro mode toks rest e hp hm
    cases mode with
    | mAtom =>
      cases toks with
      | nil => simp [parseF] at hp
      | cons tk toks' =>
        cases tk with
        | lparen =>
          simp only [parseF] at hp
          cases hi : parseF f .mOr toks' with
          | none =>
            rw [hi] at hp
            simp at hp
          | some pr =>
            obtain ⟨e', r'⟩ := pr
            rw [hi] at hp
            cases r' with
            | nil => simp at hp
            | cons tk2 r'' =>
              cases tk2 <;> simp only [Option.some.injEq, Prod.mk.injEq] at hp
              case rparen =>
                obtain ⟨he, _⟩ := hp
                subst he
                have := ih .mOr toks' (Token.rparen :: r'') e' hi rfl
                simpa [goodIds] using this
              all_goals simp at hp
        | ident w =>
          simp only [parseF] at hp
          split_ifs at hp with h1 h2 h3 <;>
            simp only [Option.some.injEq, Prod.mk.injEq] at hp
          · obtain ⟨he, _⟩ := hp
            subst he
            rfl
          · obtain ⟨he, _⟩ := hp
            subst he
            rfl
          · obtain ⟨he, _⟩ := hp
            subst he
            simpa [goodIds] using h3
        | rparen => simp [parseF] at hp
        | opAnd => simp [parseF] at hp
        | opOr => simp [parseF] at hp
        | opWith => simp [parseF] at hp
    | mWith =>
      simp only [parseF] at hp
      cases hi : parseF f .mAtom toks with
      | none =>
        rw [hi] at hp
        simp at hp
      | some pr =>
        obtain ⟨a, r⟩ := pr
        rw [hi] at hp
        have hga : goodIds a = true := ih .mAtom toks r a hi rfl
        cases r with
        | nil =>
          simp only [Option.some.injEq, Prod.mk.injEq] at hp
          obtain ⟨he, _⟩ := hp
          subst he
          exact hga
        | cons tk r' =>
          cases tk with
          | opWith =>
            cases r' with
            | nil => simp at hp
            | cons tk2 r'' =>
              cases tk2 <;> try simp at hp
              case ident x =>
                obtain ⟨hx, he, _⟩ := hp
                subst he
                simp [goodIds, hga, hx]
          | lparen =>
            simp only [Option.some.injEq, Prod.mk.injEq] at hp
            obtain ⟨he, _⟩ := hp
            subst he
            exact hga
          | rparen =>
            simp only [Option.some.injEq, Prod.mk.injEq] at hp
            obtain ⟨he, _⟩ := hp
            subst he
            exact hga
          | opAnd =>
            simp only [Option.some.injEq, Prod.mk.injEq] at hp
            obtain ⟨he, _⟩ := hp
            subst he
            exact hga
          | opOr =>
            simp only [Option.some.injEq, Prod.mk.injEq] at hp
            obtain ⟨he, _⟩ := hp
            subst he
            exact hga
          | ident w =>
            simp only [Option.some.injEq, Prod.mk.injEq] at hp
            obtain ⟨he, _⟩ := hp
            subst he
            exact hga
    | mAnd =>
      simp only [parseF] at hp
      cases hi : parseF f .mWith toks with
      | none =>
        rw [hi] at hp
        simp at hp
      | some pr =>
        obtain ⟨e1, r1⟩ := pr
        rw [hi] at hp
        have hg1 : goodIds e1 = true := ih .mWith toks r1 e1 hi rfl
        exact ih (.mAndLoop e1) r1 rest e hp (by simpa [modeGood] using hg1)
    | mAndLoop acc =>
      have hga : goodIds acc = true := by simpa [modeGood] using hm
      cases toks with
      | nil =>
        simp only [parseF, Option.some.injEq, Prod.mk.injEq] at hp
        obtain ⟨he, _⟩ := hp
        subst he
        exact hga
      | cons tk toks' =>
        cases tk with
        | opAnd =>
          simp only [parseF] at hp
          cases hi : parseF f .mWith toks' with
          | none =>
            rw [hi] at hp
            simp at hp
          | some pr =>
            obtain ⟨e1, r1⟩ := pr
            rw [hi] at hp
            have hg1 : goodIds e1 = true := ih .mWith toks' r1 e1 hi rfl
            exact ih (.mAndLoop (.andE acc e1)) r1 rest e hp
              (by simp [modeGood, goodIds, hga, hg1])
        | lparen =>
          simp only [parseF, Option.some.injEq, Prod.mk.injEq] at hp
          obtain ⟨he, _⟩ := hp
          subst he
          exact hga
        | rparen =>
          simp only [parseF, Option.some.injEq, Prod.mk.injEq] at hp
          obtain ⟨he, _⟩ := hp
          subst he
          exact hga
        | opOr =>
          simp only [parseF, Option.some.injEq, Prod.mk.injEq] at hp
          obtain ⟨he, _⟩ := hp
          subst he
          exact hga
        | opWith =>
          simp only [parseF, Option.some.injEq, Prod.mk.injEq] at hp
          obtain ⟨he, _⟩ := hp
          subst he
          exact hga
        | ident w =>
          simp only [parseF, Option.some.injEq, Prod.mk.injEq] at hp
          obtain ⟨he, _⟩ := hp
          subst he
          exact hga
    | mOr =>
      simp only [parseF] at hp
      cases hi : parseF f .mAnd toks with
      | none =>
        rw [hi] at hp
        simp at hp
      | some pr =>
        obtain ⟨e1, r1⟩ := pr
        rw [hi] at hp
        have hg1 : goodIds e1 = true := ih .mAnd toks r1 e1 hi rfl
        exact ih (.mOrLoop e1) r1 rest e hp (by simpa [modeGood] using hg1)
    | mOrLoop acc =>
      have hga : goodIds acc = true := by simpa [modeGood] using hm
      cases toks with
      | nil =>
        simp only [parseF, Option.some.injEq, Prod.mk.injEq] at hp
        obtain ⟨he, _⟩ := hp
        subst he
        exact hga
      | cons tk toks' =>
        cases tk with
        | opOr =>
          simp only [parseF] at hp
          cases hi : parseF f .mAnd toks' with
          | none =>
            rw [hi] at hp
            simp at hp
          | some pr =>
            obtain ⟨e1, r1⟩ := pr
            rw [hi] at hp
            have hg1 : goodIds e1 = true := ih .mAnd toks' r1 e1 hi rfl
            exact ih (.mOrLoop (.orE acc e1)) r1 rest e hp
              (by simp [modeGood, goodIds, hga, hg1])
        | lparen =>
          simp only [parseF, Option.some.injEq, Prod.mk.injEq] at hp
          obtain ⟨he, _⟩ := hp
          subst he
          exact hga
        | rparen =>
          simp only [parseF, Option.some.injEq, Prod.mk.injEq] at hp
          obtain ⟨he, _⟩ := hp
          subst he
          exact hga
        | opAnd =>
          simp only [parseF, Option.some.injEq, Prod.mk.injEq] at hp
          obtain ⟨he, _⟩ := hp
          subst he
          exact hga
        | opWith =>
          simp only [parseF, Option.some.injEq, Prod.mk.injEq] at hp
          obtain ⟨he, _⟩ := hp
          subst he
          exact hga
        | ident w =>
          simp only [parseF, Option.some.injEq, Prod.mk.injEq] at hp
          obtain ⟨he, _⟩ := hp
          subst he
          exact hga

theorem mem_insertLe : ∀ (x y : String) (l : List String), y ∈ insertLe x l → y = x ∨ y ∈ l
  | x, y, [] => fun hy => by
    simp only [insertLe, List.mem_singleton] at hy
    exact Or.inl hy
  | x, y, z :: zs => fun hy => by
    by_cases h : strLe x.data z.data = true
    · rw [show insertLe x (z :: zs) = x :: z :: zs by simp [insertLe, h]] at hy
      rcases List.mem_cons.mp hy with rfl | hy
      · exact Or.inl rfl
      · exact Or.inr hy
    · rw [show insertLe x (z :: zs) = z :: insertLe x zs by simp [insertLe, h]] at hy
      rcases List.mem_cons.mp hy with rfl | hy
      · exact Or.inr (by simp)
      · rcases mem_insertLe x y zs hy with h' | h'
        · exact Or.inl h'
        · exact Or.inr (List.mem_cons_of_mem _ h')

theorem mem_sortStrings : ∀ (l : List String) (y : String), y ∈ sortStrings l → y ∈ l
  | [], y => fun hy => by simp [sortStrings] at hy
  | x :: xs, y => fun hy => by
    rcases mem_insertLe x y (sortStrings xs) hy with rfl | h
    · simp
    · exact List.mem_cons_of_mem _ (mem_sortStrings xs y h)

theorem mem_dedupAdjacent : ∀ (l : List String) (y : String), y ∈ dedupAdjacent l → y ∈ l
  | [], y => fun hy => by simp [dedupAdjacent] at hy
  | [a], y => fun hy => by simpa [dedupAdjacent] using hy
  | a :: b :: t, y => fun hy => by
    by_cases h : a = b
    · rw [show dedupAdjacent (a :: b :: t) = dedupAdjacent (b :: t) by
        simp [dedupAdjacent, h]] at hy
      exact List.mem_cons_of_mem _ (mem_dedupAdjacent (b :: t) y hy)
    · rw [show dedupAdjacent (a :: b :: t) = a :: dedupAdjacent (b :: t) by
        simp [dedupAdjacent, h]] at hy
      rcases List.mem_cons.mp hy with rfl | hy
      · simp
      · exact List.mem_cons_of_mem _ (mem_dedupAdjacent (b :: t) y hy)

/-- C9: every element of `licenses()` of a successfully parsed expression is a
non-empty string containing no `(` character, no `)` character and no ASCII
whitespace character: the implementation removes all parenthesis characters
anywhere in each token and splits on ASCII whitespace. -/
theorem c9_licenses_elements_clean :
    ∀ (s : String) (ex : SpdxExpression), SpdxExpression.parse s = .ok ex →
    ∀ x ∈ ex.licenses, x ≠ "" ∧
      ∀ c ∈ x.data, ¬(c = '(') ∧ ¬(c = ')') ∧ isAsciiWs c = false := by
  intro s ex hp x hx
  obtain ⟨e, he, rfl⟩ : ∃ e, ExpressionVariant.parse s = .ok e ∧ ex = ⟨e⟩ := by
    unfold SpdxExpression.parse at hp
    cases hi : ExpressionVariant.parse s with
    | ok v =>
      rw [hi] at hp
      simp only [Except.ok.injEq] at hp
      exact ⟨v, rfl, hp.symm⟩
    | error err =>
      rw [hi] at hp
      simp at hp
  have hgood : goodIds e = true := by
    simp only [ExpressionVariant.parse] at he
    cases hi : parseF (3 * (tokenize s).length + 1) .mOr (tokenize s) with
    | none =>
      rw [hi] at he
      simp at he
    | some pr =>
      obtain ⟨e', r⟩ := pr
      rw [hi] at he
      cases r with
      | nil =>
        simp only [Except.ok.injEq] at he
        subst he
        exact parseF_goodIds _ .mOr _ _ _ hi rfl
      | cons t r' => simp at he
  have hx1 : x ∈ sortStrings
      (((splitAsciiWs (toString (SpdxExpression.mk e))).filter
        (fun i => !(i = "OR" || i = "AND" || i = "WITH"))).map stripParens) :=
    mem_dedupAdjacent _ x hx
  have hx2 := mem_sortStrings _ x hx1
  obtain ⟨t, ht, hxt⟩ := List.mem_map.mp hx2
  have ht' : t ∈ splitAsciiWs (toString (SpdxExpression.mk e)) := List.mem_of_mem_filter ht
  have hclean := splitWsGo_tokens_clean ((toString (SpdxExpression.mk e)).data) []
    (by simp) t ht'
  have hrp := renderP_goodProps e hgood 1
  have hhasId := splitWsGo_hasId ((toString (SpdxExpression.mk e)).data) [] (by simp)
    (by simpa using hrp.2.1)
    (by simpa using hrp.2.2.1)
    (by
      intro c hc hc'
      rcases hrp.2.2.2.1 c (by simpa using hc) with h | h
      · rw [hc'] at h
        exact absurd h (by decide)
      · rw [hc'] at h
        exact absurd h (by decide))
    (by
      intro c hc hc'
      rcases hrp.2.2.2.2 c (by simpa using hc) with h | h
      · rw [hc'] at h
        exact absurd h (by decide)
      · rw [hc'] at h
        exact absurd h (by decide))
    t ht'
  obtain ⟨cid, hcid, hcidid⟩ := hhasId
  subst hxt
  constructor
  · intro h0
    have hm : cid ∈ (stripParens t).data := by
      simp only [stripParens]
      refine List.mem_filter.mpr ⟨hcid, ?_⟩
      simp [idChar_ne_lparen hcidid, idChar_ne_rparen hcidid]
    rw [h0] at hm
    exact (List.not_mem_nil cid) hm
  · intro c hc
    obtain ⟨hct, hnp1, hnp2⟩ : c ∈ t.data ∧ ¬(c = '(') ∧ ¬(c = ')') := by
      simpa [stripParens] using hc
    exact ⟨hnp1, hnp2, hclean.2 c hct⟩

/-- C9 witness: the single license element of `parse("MIT")` is non-empty and
free of parentheses and whitespace. -/
theorem c9_licenses_elements_clean_witness :
    ("MIT" : String) ≠ "" ∧
      ∀ c ∈ ("MIT" : String).data, ¬(c = '(') ∧ ¬(c = ')') ∧ isAsciiWs c = false :=
  c9_licenses_elements_clean "MIT" ⟨.simple "MIT"⟩ rfl "MIT" (by decide)
